import Mathlib

set_option maxHeartbeats 1000000

/- Shallow embedding of the go-tic-tac-toe engine (the tictactoe package in
   game.go together with the bot strategies and the internal bot registry).
   Go uint8 values are modelled as Nat, Go slices as lists, Go interface
   values as structures of functions, and fallible Go functions return
   Except or pair their result with an optional error. -/

/-- Player mirrors the Go type Player (uint8); zero denotes no player. -/
abbrev Player := Nat

/-- PlayerOne mirrors the Go constant PlayerOne. -/
def PlayerOne : Player := 1

/-- PlayerTwo mirrors the Go constant PlayerTwo. -/
def PlayerTwo : Player := 2

/-- Player.IsValid mirrors Go Player.IsValid. -/
def Player.IsValid (p : Player) : Bool := p == PlayerOne || p == PlayerTwo

/-- Player.IsValidOrZero mirrors Go Player.IsValidOrZero. -/
def Player.IsValidOrZero (p : Player) : Bool := p == 0 || Player.IsValid p

/-- Player.Next mirrors Go Player.Next: swaps the two players, any other value
returns itself. -/
def Player.Next (p : Player) : Player :=
  if p = PlayerOne then PlayerTwo else if p = PlayerTwo then PlayerOne else p

/-- Cell mirrors the Go struct Cell (row and column are uint8 values). -/
structure Cell where
  column : Nat
  row : Nat
deriving DecidableEq, Repr

instance : Inhabited Cell := ⟨⟨0, 0⟩⟩

/-- Cells mirrors the Go type Cells. -/
abbrev Cells := List Cell

/-- Cells.Random mirrors Go Cells.Random: an empty list yields the zero Cell,
otherwise the element at the index drawn by rand.Intn(len).  The draw of
rand.Intn is modelled by the oracle argument r, reduced modulo the length to
respect the Intn range contract. -/
def Cells.Random (cs : Cells) (r : Nat) : Cell :=
  if cs.length = 0 then ⟨0, 0⟩ else cs.getD (r % cs.length) ⟨0, 0⟩

/-- Turn mirrors the Go struct Turn (an embedded Cell plus the acting Player). -/
structure Turn where
  cell : Cell
  player : Player
deriving DecidableEq, Repr

instance : Inhabited Turn := ⟨⟨⟨0, 0⟩, 0⟩⟩

/-- State mirrors the Go type State. -/
inductive State where
  | awaitingTurn
  | draw
  | won
deriving DecidableEq, Repr

/-- Err mirrors the error values of the Go package by category.  The two
out-of-bounds formats are kept distinct (row and column are individually
identified) and ErrBot wraps the underlying error as in fmtBotErr. -/
inductive Err where
  | rowOutOfBounds
  | colOutOfBounds
  | conditionInvalid
  | gameOver
  | optionInvalid
  | playerNotFound
  | turnInvalid
  | bot (inner : Err)
deriving DecidableEq, Repr

/-- Board mirrors the Go type Board ([][]Player); the nil board is modelled as
the empty list. -/
abbrev Board := List (List Player)

/-- cellAt reads a board cell, defaulting to zero out of range (Go indexing is
only ever performed after a bounds check). -/
def cellAt (b : Board) (row col : Nat) : Player := (b.getD row []).getD col 0

/-- Board.setCell models the Go assignment b[row][col] = p. -/
def Board.setCell (b : Board) (row col : Nat) (p : Player) : Board :=
  b.set row ((b.getD row []).set col p)

/-- Board.Copy mirrors Go Board.Copy: the copy has len(b) rows, each row being
a fresh slice of length len(b) filled from the original row and padded with
zeros. -/
def Board.Copy (b : Board) : Board :=
  b.map fun cols => (cols ++ List.replicate (b.length - cols.length) 0).take b.length

/-- findEmptyRow scans one row of a board for empty cells, mirroring the inner
loop of Go Board.FindEmpty. -/
def findEmptyRow (row : Nat) : Nat → List Player → List Cell
  | _, [] => []
  | col, p :: rest =>
    if p = 0 then ⟨col, row⟩ :: findEmptyRow row (col + 1) rest
    else findEmptyRow row (col + 1) rest

/-- findEmptyRows scans the rows of a board, mirroring the outer loop of Go
Board.FindEmpty. -/
def findEmptyRows : Nat → List (List Player) → List Cell
  | _, [] => []
  | row, cols :: rest => findEmptyRow row 0 cols ++ findEmptyRows (row + 1) rest

/-- Board.FindEmpty mirrors Go Board.FindEmpty: all empty cells in row-major
scan order. -/
def Board.FindEmpty (b : Board) : Cells := findEmptyRows 0 b

/-- newBoard mirrors Go newBoard: a size-by-size board of zeros. -/
def newBoard (size : Nat) : Board := List.replicate size (List.replicate size 0)

/-- Condition mirrors the Go interface Condition: a winner scan over the whole
board and an incremental check for the just-played turn. -/
structure Condition where
  findWinner : Board → Player
  isWinningTurn : Board → Turn → Bool

/-- Conditions mirrors the Go type Conditions. -/
abbrev Conditions := List Condition

/-- Conditions.FindWinner mirrors Go Conditions.FindWinner: conditions are
evaluated in order, a winner that is neither zero nor a valid player yields
ErrConditionInvalid, the first positive winner is returned, and zero is
returned when every condition reports zero. -/
def Conditions.FindWinner : Conditions → Board → Except Err Player
  | [], _ => .ok 0
  | c :: rest, board =>
    let player := c.findWinner board
    if ¬ Player.IsValidOrZero player then .error .conditionInvalid
    else if player > 0 then .ok player
    else Conditions.FindWinner rest board

/-- Conditions.IsWinningTurn mirrors Go Conditions.IsWinningTurn: true as soon
as any condition reports the turn as winning. -/
def Conditions.IsWinningTurn : Conditions → Board → Turn → Bool
  | [], _, _ => false
  | c :: rest, board, turn =>
    if c.isWinningTurn board turn then true
    else Conditions.IsWinningTurn rest board turn

/-- rowWinner mirrors Go horizontalCondition.findWinnerFromRow: scan a row,
returning zero on an empty cell or a mismatch, else the single occupant. -/
def rowWinner : List Player → Player → Player
  | [], acc => acc
  | current :: rest, acc =>
    if current = 0 then 0
    else if acc = 0 then rowWinner rest current
    else if current ≠ acc then 0
    else rowWinner rest acc

/-- horizontalFindWinner mirrors Go horizontalCondition.FindWinner. -/
def horizontalFindWinner : Board → Player
  | [] => 0
  | cols :: rest =>
    let w := rowWinner cols 0
    if w > 0 then w else horizontalFindWinner rest

/-- horizontalIsWinningTurn mirrors Go horizontalCondition.IsWinningTurn: every
cell of the turn's row must hold the turn's player. -/
def horizontalIsWinningTurn (board : Board) (turn : Turn) : Bool :=
  (board.getD turn.cell.row []).all fun current => current == turn.player

/-- horizontalCondition mirrors the Go struct horizontalCondition. -/
def horizontalCondition : Condition :=
  ⟨horizontalFindWinner, horizontalIsWinningTurn⟩

/-- colWinner mirrors Go verticalCondition.findWinnerFromCol. -/
def colWinner : List (List Player) → Nat → Player → Player
  | [], _, acc => acc
  | cols :: rest, col, acc =>
    let current := cols.getD col 0
    if current = 0 then 0
    else if acc = 0 then colWinner rest col current
    else if acc ≠ current then 0
    else colWinner rest col acc

/-- verticalFindWinnerAux iterates the column indices for Go
verticalCondition.FindWinner. -/
def verticalFindWinnerAux (board : Board) : List Nat → Player
  | [] => 0
  | i :: rest =>
    let w := colWinner board i 0
    if w > 0 then w else verticalFindWinnerAux board rest

/-- verticalFindWinner mirrors Go verticalCondition.FindWinner. -/
def verticalFindWinner (board : Board) : Player :=
  verticalFindWinnerAux board (List.range board.length)

/-- verticalIsWinningTurn mirrors Go verticalCondition.IsWinningTurn: every row
must hold the turn's player in the turn's column. -/
def verticalIsWinningTurn (board : Board) (turn : Turn) : Bool :=
  board.all fun cols => cols.getD turn.cell.column 0 == turn.player

/-- verticalCondition mirrors the Go struct verticalCondition. -/
def verticalCondition : Condition :=
  ⟨verticalFindWinner, verticalIsWinningTurn⟩

/-- diagWinner folds one diagonal (given as index and row pairs picked by the
caller) exactly as the Go findWinnerFromLeft and findWinnerFromRight loops. -/
def diagWinner : List Player → Player → Player
  | [], acc => acc
  | current :: rest, acc =>
    if current = 0 then 0
    else if acc = 0 then diagWinner rest current
    else if current ≠ acc then 0
    else diagWinner rest acc

/-- leftDiag collects board[i][i] for each row i. -/
def leftDiag (board : Board) : List Player :=
  (List.range board.length).map fun i => cellAt board i i

/-- rightDiag collects board[i][len-i-1] for each row i. -/
def rightDiag (board : Board) : List Player :=
  (List.range board.length).map fun i => cellAt board i (board.length - i - 1)

/-- diagonalFindWinner mirrors Go diagonalCondition.FindWinner: the
top-left-to-bottom-right diagonal first, then the other one. -/
def diagonalFindWinner (board : Board) : Player :=
  let w := diagWinner (leftDiag board) 0
  if w > 0 then w
  else
    let w2 := diagWinner (rightDiag board) 0
    if w2 > 0 then w2 else 0

/-- diagonalIsWinningTurn mirrors Go diagonalCondition.IsWinningTurn: each
diagonal is only checked when the turn's cell lies on it. -/
def diagonalIsWinningTurn (board : Board) (turn : Turn) : Bool :=
  (turn.cell.row == turn.cell.column &&
    (leftDiag board).all fun current => current == turn.player) ||
  (turn.cell.row == board.length - turn.cell.column - 1 &&
    (rightDiag board).all fun current => current == turn.player)

/-- diagonalCondition mirrors the Go struct diagonalCondition. -/
def diagonalCondition : Condition :=
  ⟨diagonalFindWinner, diagonalIsWinningTurn⟩

/-- standardConditions mirrors the Go variable standardConditions. -/
def standardConditions : Conditions :=
  [horizontalCondition, verticalCondition, diagonalCondition]

/-- checkErr distinguishes the failure messages produced by Go Board.check
(each becomes an ErrOptionInvalid when wrapped by WithBoard). -/
inductive checkErr where
  | tooFewRows
  | tooManyRows
  | badRowLength (row : Nat)
  | unknownPlayer (row col : Nat)
  | unfairAdvantage (player : Player)
deriving DecidableEq, Repr

/-- BoardCheck bundles the named results of Go Board.check. -/
structure BoardCheck where
  starter : Player
  size : Nat
  maxTurns : Nat
  turns : List Turn
deriving Repr

/-- checkCells mirrors the per-cell loop of Go Board.check: empty cells are
skipped, valid players become turns in scan order, any other value fails. -/
def checkCells (row : Nat) : Nat → List Player → Except checkErr (List Turn)
  | _, [] => .ok []
  | col, p :: rest =>
    if p = 0 then checkCells row (col + 1) rest
    else if Player.IsValid p then
      match checkCells row (col + 1) rest with
      | .error e => .error e
      | .ok ts => .ok (⟨⟨col, row⟩, p⟩ :: ts)
    else .error (.unknownPlayer row col)

/-- checkRows mirrors the per-row loop of Go Board.check: each row must have
exactly size columns, then its cells are scanned. -/
def checkRows (size : Nat) : Nat → List (List Player) → Except checkErr (List Turn)
  | _, [] => .ok []
  | row, cols :: rest =>
    if cols.length ≠ size then .error (.badRowLength row)
    else
      match checkCells row 0 cols with
      | .error e => .error e
      | .ok ts =>
        match checkRows size (row + 1) rest with
        | .error e => .error e
        | .ok ts2 => .ok (ts ++ ts2)

/-- countTurnsOf counts the turns of one player, mirroring the turnCounter map
of Go Board.check. -/
def countTurnsOf (p : Player) (ts : List Turn) : Nat :=
  (ts.filter fun t => t.player = p).length

/-- Board.check mirrors Go Board.check: the row count bounds, the row and cell
scan, and the turn-difference switch deriving the starter player. -/
def Board.check (b : Board) : Except checkErr BoardCheck :=
  let l := b.length
  if l < 3 then .error .tooFewRows
  else if l > 255 then .error .tooManyRows
  else
    match checkRows l 0 b with
    | .error e => .error e
    | .ok turns =>
      let diffTurns : Int := (countTurnsOf PlayerOne turns : Int) - countTurnsOf PlayerTwo turns
      if diffTurns = 1 then .ok ⟨PlayerTwo, l, l * l, turns⟩
      else if diffTurns > 1 then .error (.unfairAdvantage PlayerOne)
      else if diffTurns = -1 then .ok ⟨PlayerOne, l, l * l, turns⟩
      else if diffTurns < -1 then .error (.unfairAdvantage PlayerTwo)
      else .ok ⟨0, l, l * l, turns⟩

/-- BotView carries the pieces of the Game handle that the built-in bots read:
Conditions(), MaxTurns() and LastTurn(). -/
structure BotView where
  conditions : Conditions
  maxTurns : Nat
  lastTurn : Option Turn

/-- BotSpec mirrors the Go interface Bot: the bound player identity plus the
turn-choosing function.  The extra Nat argument is the oracle for the single
rand.Intn draw a built-in bot may perform. -/
structure BotSpec where
  player : Player
  turnFn : Board → BotView → Nat → Except Err Cell

/-- game mirrors the Go struct game (the unexported aggregate root). -/
structure game where
  board : Board
  bot : Option BotSpec
  conditions : Conditions
  maxTurns : Nat
  player : Player
  size : Nat
  state : State
  turns : List Turn

/-- game.validateBounds mirrors Go game.validateBounds: the row is checked
before the column and each failure mode is distinct. -/
def game.validateBounds (g : game) (cell : Cell) : Option Err :=
  if cell.row ≥ g.size then some .rowOutOfBounds
  else if cell.column ≥ g.size then some .colOutOfBounds
  else none

/-- game.validateTurn mirrors Go game.validateTurn: terminal state, invalid
player, a human submitting the bot player's move, the wrong player on move and
an occupied cell are rejected in that order. -/
def game.validateTurn (g : game) (turn : Turn) (allowBotTurn : Bool) : Option Err :=
  if g.state ≠ .awaitingTurn then some .gameOver
  else if ¬ Player.IsValid turn.player then some .playerNotFound
  else if (match g.bot with
    | some b => b.player == turn.player
    | none => false) && !allowBotTurn then some .turnInvalid
  else if turn.player ≠ g.player then some .turnInvalid
  else if cellAt g.board turn.cell.row turn.cell.column > 0 then some .turnInvalid
  else none

/-- game.play mirrors Go game.play: validation, then the board write and the
history append, then the win/draw/advance resolution.  The mutated game is
returned alongside the Go results (State, Player, error). -/
def game.play (g : game) (turn : Turn) (allowBotTurn : Bool) :
    game × State × Player × Option Err :=
  match g.validateBounds turn.cell with
  | some e => (g, g.state, g.player, some e)
  | none =>
    match g.validateTurn turn allowBotTurn with
    | some e => (g, g.state, g.player, some e)
    | none =>
      let board := g.board.setCell turn.cell.row turn.cell.column turn.player
      let turns := g.turns ++ [turn]
      if Conditions.IsWinningTurn g.conditions board turn then
        let g2 := { g with board := board, turns := turns, state := .won }
        (g2, g2.state, g2.player, none)
      else if turns.length ≥ g.maxTurns then
        let g2 := { g with board := board, turns := turns, player := 0, state := .draw }
        (g2, g2.state, g2.player, none)
      else
        let g2 := { g with board := board, turns := turns, player := Player.Next turn.player }
        (g2, g2.state, g2.player, none)

/-- game.Play mirrors Go game.Play: the unprivileged submission path. -/
def game.Play (g : game) (turn : Turn) : game × State × Player × Option Err :=
  g.play turn false

/-- game.IsBotTurn mirrors Go game.IsBotTurn. -/
def game.IsBotTurn (g : game) : Bool :=
  g.state == .awaitingTurn &&
    (match g.bot with
     | some b => b.player == g.player
     | none => false)

/-- game.LastTurn mirrors Go game.LastTurn (the ok flag becomes Option). -/
def game.LastTurn (g : game) : Option Turn := g.turns.getLast?

/-- game.RemainingTurns mirrors Go game.RemainingTurns. -/
def game.RemainingTurns (g : game) : Int := (g.maxTurns : Int) - g.turns.length

/-- game.AllowBotTurn mirrors Go game.AllowBotTurn: a no-op unless it is the
bot's turn, otherwise the bot's chosen cell is played through the privileged
path and any failure is wrapped as ErrBot.  The rand oracle r is forwarded to
the bot. -/
def game.AllowBotTurn (g : game) (r : Nat) : game × State × Player × Option Err :=
  if ¬ g.IsBotTurn then (g, g.state, g.player, none)
  else
    match g.bot with
    | none => (g, g.state, g.player, none)
    | some b =>
      match b.turnFn g.board ⟨g.conditions, g.maxTurns, g.LastTurn⟩ r with
      | .error e => (g, g.state, g.player, some (.bot e))
      | .ok cell =>
        let res := g.play ⟨cell, g.player⟩ true
        (res.1, res.1.state, res.1.player, res.2.2.2.map .bot)

/-- GOption mirrors the Go type Option (a configuration mutator that may
fail). -/
abbrev GOption := game → Except Err game

/-- WithBoard mirrors Go WithBoard: the board is checked and on success the
board, turn ceiling, size and turn history are installed, with the starter
player only set when one was derived. -/
def WithBoard (board : Board) : GOption := fun g =>
  match board.check with
  | .error _ => .error .optionInvalid
  | .ok bc =>
    .ok { g with
      board := board
      maxTurns := bc.maxTurns
      size := bc.size
      turns := bc.turns
      player := if bc.starter > 0 then bc.starter else g.player }

/-- withBot mirrors the Go helper withBot: ignored when a bot is already
bound, and an invalid bot player is an invalid option. -/
def withBot (bot : BotSpec) : GOption := fun g =>
  match g.bot with
  | some _ => .ok g
  | none =>
    if ¬ Player.IsValid bot.player then .error .optionInvalid
    else .ok { g with bot := some bot }

/-- WithCondition mirrors Go WithCondition. -/
def WithCondition (condition : Condition) : GOption := fun g =>
  .ok { g with conditions := g.conditions ++ [condition] }

/-- WithConditions mirrors Go WithConditions. -/
def WithConditions (conditions : Conditions) : GOption := fun g =>
  .ok { g with conditions := g.conditions ++ conditions }

/-- WithSize mirrors Go WithSize: ignored when a board is present, out-of-range
sizes are invalid options, otherwise the size and turn ceiling are set. -/
def WithSize (size : Nat) : GOption := fun g =>
  if g.board ≠ [] then .ok g
  else if size < 3 then .error .optionInvalid
  else if size > 255 then .error .optionInvalid
  else .ok { g with maxTurns := size * size, size := size }

/-- WithStarterPlayer mirrors Go WithStarterPlayer: ignored when a starter is
already set, an invalid player is an invalid option. -/
def WithStarterPlayer (player : Player) : GOption := fun g =>
  if g.player > 0 then .ok g
  else if ¬ Player.IsValid player then .error .optionInvalid
  else .ok { g with player := player }

/-- applyOpts folds the option list over the draft game, short-circuiting on
the first failure exactly as the loop in Go Start. -/
def applyOpts : game → List GOption → Except Err game
  | g, [] => .ok g
  | g, o :: rest =>
    match o g with
    | .error e => .error e
    | .ok g2 => applyOpts g2 rest

/-- Start mirrors Go Start: the default draft (size 3, standard conditions,
awaiting turn), the option pipeline, then either a fresh empty board with
PlayerOne defaulted as starter, or the preset board resolved through the
global winner scan and the draw check. -/
def Start (opts : List GOption) : Except Err game :=
  let g : game :=
    { board := [], bot := none, conditions := standardConditions, maxTurns := 9,
      player := 0, size := 3, state := .awaitingTurn, turns := [] }
  match applyOpts g opts with
  | .error e => .error e
  | .ok g =>
    if g.board = [] then
      .ok { g with board := newBoard g.size,
                   player := if g.player = 0 then PlayerOne else g.player }
    else
      match Conditions.FindWinner g.conditions g.board with
      | .error e => .error e
      | .ok winner =>
        if winner > 0 then .ok { g with state := .won, player := winner }
        else if g.turns.length ≥ g.maxTurns then .ok { g with state := .draw, player := 0 }
        else if g.player = 0 then .ok { g with player := PlayerOne }
        else .ok g

/-- easyBotTurn mirrors Go easyBot.Turn: a random empty cell. -/
def easyBotTurn (board : Board) (_ : BotView) (r : Nat) : Except Err Cell :=
  .ok (Cells.Random board.FindEmpty r)

/-- NewEasyBot mirrors Go NewEasyBot. -/
def NewEasyBot (player : Player) : BotSpec := ⟨player, easyBotTurn⟩

/-- normalScan mirrors the candidate loop of Go normalBot.Turn: the first
candidate whose simulated placement is a winning turn. -/
def normalScan (bp : Player) (conds : Conditions) (board : Board) : List Cell → Option Cell
  | [] => none
  | c :: rest =>
    let nextBoard := (board.Copy).setCell c.row c.column bp
    if Conditions.IsWinningTurn conds nextBoard ⟨c, bp⟩ then some c
    else normalScan bp conds board rest

/-- normalBotTurn mirrors Go normalBot.Turn: play an immediate win if one
exists, else a random empty cell. -/
def normalBotTurn (bp : Player) (board : Board) (view : BotView) (r : Nat) :
    Except Err Cell :=
  let candidates := board.FindEmpty
  match normalScan bp view.conditions board candidates with
  | some c => .ok c
  | none => .ok (candidates.Random r)

/-- NewNormalBot mirrors Go NewNormalBot. -/
def NewNormalBot (player : Player) : BotSpec := ⟨player, normalBotTurn player⟩

/-- hardOppScan mirrors the inner opponent loop of Go hardBot.Turn: every
opponent reply that would win overwrites the remembered blocking cell. -/
def hardOppScan (opp : Player) (conds : Conditions) (nextBoard : Board) :
    List Cell → Option Cell → Option Cell
  | [], acc => acc
  | oc :: rest, acc =>
    let oppBoard := (nextBoard.Copy).setCell oc.row oc.column opp
    if Conditions.IsWinningTurn conds oppBoard ⟨oc, opp⟩ then
      hardOppScan opp conds nextBoard rest (some oc)
    else hardOppScan opp conds nextBoard rest acc

/-- hardScan mirrors the outer candidate loop of Go hardBot.Turn: an immediate
winning candidate returns early (Sum.inr), otherwise the loop finishes with
the accumulated last-found opponent-winning cell (Sum.inl). -/
def hardScan (bp opp : Player) (conds : Conditions) (board : Board) :
    List Cell → Option Cell → Sum (Option Cell) Cell
  | [], acc => .inl acc
  | c :: rest, acc =>
    let nextBoard := (board.Copy).setCell c.row c.column bp
    if Conditions.IsWinningTurn conds nextBoard ⟨c, bp⟩ then .inr c
    else
      let acc2 := hardOppScan opp conds nextBoard nextBoard.FindEmpty acc
      hardScan bp opp conds board rest acc2

/-- hardBotTurn mirrors Go hardBot.Turn: win now, else block the last-found
opponent win, else a random empty cell. -/
def hardBotTurn (bp opp : Player) (board : Board) (view : BotView) (r : Nat) :
    Except Err Cell :=
  let candidates := board.FindEmpty
  match hardScan bp opp view.conditions board candidates none with
  | .inr c => .ok c
  | .inl (some c) => .ok c
  | .inl none => .ok (candidates.Random r)

/-- NewHardBot mirrors Go NewHardBot: the opponent identity is fixed at
construction as player.Next(). -/
def NewHardBot (player : Player) : BotSpec :=
  ⟨player, hardBotTurn player (Player.Next player)⟩

/-- impossibleChoice mirrors the Go struct impossibleChoice (value is a Go
int, modelled as Int; depth is never negative). -/
structure impossibleChoice where
  cell : Cell
  depth : Nat
  value : Int
deriving DecidableEq, Repr

/-- selectChoice mirrors the selection tail of Go impossibleBot.minimax: the
sentinel accumulators at plus and minus (maxTurns+1) squared, the switch that
keeps the first strictly better choice, and the max/min pick.  The Go float
computation int(math.Pow(maxTurns+1, 2)) is exact in this range. -/
def selectChoice (mx : Bool) (maxTurns depth : Nat) (choices : List impossibleChoice) :
    impossibleChoice :=
  let sentinel : Int := ((maxTurns : Int) + 1) ^ 2
  let pair := choices.foldl
    (fun (p : impossibleChoice × impossibleChoice) choice =>
      if mx && choice.value > p.2.value then (p.1, choice)
      else if !mx && choice.value < p.1.value then (choice, p.2)
      else p)
    (⟨⟨0, 0⟩, depth, sentinel⟩, ⟨⟨0, 0⟩, depth, -sentinel⟩)
  if mx then pair.2 else pair.1

/-- minimaxChildrenAux mirrors the candidate loop of Go impossibleBot.minimax:
a deep copy with the candidate placed, the recursive call (passed in as the
search at the next fuel level) with the flipped ply and next player at
depth+1, the early return on error, and the annotation of each resulting
choice with the candidate cell. -/
def minimaxChildrenAux
    (rec : Board → Turn → Bool → Player → Nat → Option (Except Err impossibleChoice))
    (board : Board) (mx : Bool) (player : Player) (depth : Nat) :
    List Cell → Option (Except Err (List impossibleChoice))
  | [] => some (.ok [])
  | c :: rest =>
    let nextBoard := (board.Copy).setCell c.row c.column player
    match rec nextBoard ⟨c, player⟩ (!mx) (Player.Next player) (depth + 1) with
    | none => none
    | some (.error e) => some (.error e)
    | some (.ok choice) =>
      match minimaxChildrenAux rec board mx player depth rest with
      | none => none
      | some (.error e) => some (.error e)
      | some (.ok choices) => some (.ok ({ choice with cell := c } :: choices))

/-- minimaxF mirrors Go impossibleBot.minimax.  The extra fuel argument makes
the unbounded Go recursion total: none models divergence and never occurs when
the moving player is valid and the fuel exceeds the number of empty cells. -/
def minimaxF (bp : Player) (conds : Conditions) (maxTurns : Nat) :
    Nat → Board → Turn → Bool → Player → Nat → Option (Except Err impossibleChoice)
  | 0, _, _, _, _, _ => none
  | fuel + 1, board, lastTurn, mx, player, depth =>
    let candidates := board.FindEmpty
    match Conditions.FindWinner conds board with
    | .error e => some (.error e)
    | .ok winner =>
      if winner = bp then
        some (.ok ⟨lastTurn.cell, depth, (maxTurns : Int) + 1 - depth⟩)
      else if winner = Player.Next bp then
        some (.ok ⟨lastTurn.cell, depth, -((maxTurns : Int) + 1) + depth⟩)
      else if candidates.length = 0 then
        some (.ok ⟨lastTurn.cell, depth, 0⟩)
      else
        match minimaxChildrenAux (minimaxF bp conds maxTurns fuel)
            board mx player depth candidates with
        | none => none
        | some (.error e) => some (.error e)
        | some (.ok choices) => some (.ok (selectChoice mx maxTurns depth choices))

/-- minimaxChildren names the candidate loop at one fuel level. -/
def minimaxChildren (bp : Player) (conds : Conditions) (maxTurns fuel : Nat)
    (board : Board) (mx : Bool) (player : Player) (depth : Nat)
    (cands : List Cell) : Option (Except Err (List impossibleChoice)) :=
  minimaxChildrenAux (minimaxF bp conds maxTurns fuel) board mx player depth cands

/-- impossibleBotTurn mirrors Go impossibleBot.Turn: the zero Turn stands in
for a missing last turn and the root minimax call is made on the bot's ply at
depth 0.  The fuel is one more than the number of empty cells, which always
suffices for a valid player; the fallback answer for the divergence case is
never reached in that situation. -/
def impossibleBotTurn (bp : Player) (board : Board) (view : BotView) (_ : Nat) :
    Except Err Cell :=
  let lastTurn := view.lastTurn.getD ⟨⟨0, 0⟩, 0⟩
  match minimaxF bp view.conditions view.maxTurns (board.FindEmpty.length + 1)
      board lastTurn true bp 0 with
  | none => .ok ⟨0, 0⟩
  | some (.error e) => .error e
  | some (.ok choice) => .ok choice.cell

/-- NewImpossibleBot mirrors Go NewImpossibleBot. -/
def NewImpossibleBot (player : Player) : BotSpec := ⟨player, impossibleBotTurn player⟩

/-- WithEasyBot mirrors Go WithEasyBot. -/
def WithEasyBot (player : Player) : GOption := withBot (NewEasyBot player)

/-- WithNormalBot mirrors Go WithNormalBot. -/
def WithNormalBot (player : Player) : GOption := withBot (NewNormalBot player)

/-- WithHardBot mirrors Go WithHardBot. -/
def WithHardBot (player : Player) : GOption := withBot (NewHardBot player)

/-- WithImpossibleBot mirrors Go WithImpossibleBot. -/
def WithImpossibleBot (player : Player) : GOption := withBot (NewImpossibleBot player)

/-- MaxSizeImpossible mirrors the Go constant bot.MaxSizeImpossible from the
internal bot registry. -/
def MaxSizeImpossible : Nat := 3

/-- cliBotSizeExceeded mirrors the CLI validation in main (cmd/game.go): with a
bot selected, a positive registry maximum smaller than the chosen size rejects
the flag pair before the Game is constructed. -/
def cliBotSizeExceeded (maxSize size : Nat) : Bool :=
  maxSize > 0 && size > maxSize

lemma findWinner_all_zero (cs : Conditions) (b : Board)
    (h : ∀ c ∈ cs, c.findWinner b = 0) : Conditions.FindWinner cs b = .ok 0 := by
  induction cs with
  | nil => rfl
  | cons c rest ih =>
    have hc : c.findWinner b = 0 := h c (List.mem_cons_self c rest)
    simp only [Conditions.FindWinner, hc]
    simp only [Player.IsValidOrZero]
    simp
    exact ih fun c2 hc2 => h c2 (List.mem_cons_of_mem c hc2)

lemma findWinner_first_winner (pre : Conditions) (c : Condition) (post : Conditions)
    (b : Board) (hpre : ∀ c2 ∈ pre, c2.findWinner b = 0)
    (hc : Player.IsValid (c.findWinner b) = true) :
    Conditions.FindWinner (pre ++ c :: post) b = .ok (c.findWinner b) := by
  induction pre with
  | nil =>
    have hvz : Player.IsValidOrZero (c.findWinner b) = true := by
      simp [Player.IsValidOrZero, hc]
    have hpos : c.findWinner b > 0 := by
      have h1 := hc
      simp [Player.IsValid, PlayerOne, PlayerTwo] at h1
      rcases h1 with h1 | h1 <;> rw [h1] <;> decide
    simp [Conditions.FindWinner, hvz, hpos]
  | cons c0 rest ih =>
    have hc0 : c0.findWinner b = 0 := hpre c0 (List.mem_cons_self c0 rest)
    simp only [List.cons_append, Conditions.FindWinner, hc0]
    simp only [Player.IsValidOrZero]
    simp
    exact ih fun c2 hc2 => hpre c2 (List.mem_cons_of_mem c0 hc2)

lemma findWinner_invalid (pre : Conditions) (c : Condition) (post : Conditions)
    (b : Board) (hpre : ∀ c2 ∈ pre, c2.findWinner b = 0)
    (hc : Player.IsValidOrZero (c.findWinner b) = false) :
    Conditions.FindWinner (pre ++ c :: post) b = .error .conditionInvalid := by
  induction pre with
  | nil => simp [Conditions.FindWinner, hc]
  | cons c0 rest ih =>
    have hc0 : c0.findWinner b = 0 := hpre c0 (List.mem_cons_self c0 rest)
    simp only [List.cons_append, Conditions.FindWinner, hc0]
    simp only [Player.IsValidOrZero]
    simp
    exact ih fun c2 hc2 => hpre c2 (List.mem_cons_of_mem c0 hc2)

/-- C7: the combined winner scan evaluates conditions in registration order:
if every condition reports zero the result is zero with no error; the first
condition to report a valid positive winner short-circuits (the result does
not depend on later conditions); and a condition reporting an invalid non-zero
value surfaces the invalid-condition error to the caller. -/
theorem conditions_findWinner_behaviour :
    (∀ (cs : Conditions) (b : Board), (∀ c ∈ cs, c.findWinner b = 0) →
      Conditions.FindWinner cs b = .ok 0) ∧
    (∀ (pre : Conditions) (c : Condition) (post : Conditions) (b : Board),
      (∀ c2 ∈ pre, c2.findWinner b = 0) →
      Player.IsValid (c.findWinner b) = true →
      Conditions.FindWinner (pre ++ c :: post) b = .ok (c.findWinner b)) ∧
    (∀ (pre : Conditions) (c : Condition) (post : Conditions) (b : Board),
      (∀ c2 ∈ pre, c2.findWinner b = 0) →
      Player.IsValidOrZero (c.findWinner b) = false →
      Conditions.FindWinner (pre ++ c :: post) b = .error .conditionInvalid) :=
  ⟨findWinner_all_zero, findWinner_first_winner, findWinner_invalid⟩

/-- C7 witness: the short-circuit case at a concrete input: a zero-reporting
condition followed by one that reports PlayerTwo and an invalid one after it. -/
theorem conditions_findWinner_behaviour_witness :
    Conditions.FindWinner
      [⟨fun _ => 0, fun _ _ => false⟩, ⟨fun _ => 2, fun _ _ => false⟩,
       ⟨fun _ => 7, fun _ _ => false⟩] [[0]] = .ok 2 :=
  conditions_findWinner_behaviour.2.1 [⟨fun _ => 0, fun _ _ => false⟩]
    ⟨fun _ => 2, fun _ _ => false⟩ [⟨fun _ => 7, fun _ _ => false⟩] [[0]]
    (by intro c2 hc2; simp at hc2; subst hc2; rfl) (by rfl)

/-- C3 counterexample: constructing a Game of size 4 with the impossible bot
does not fail at configuration time: Start succeeds, refuting the claim that
sizes above 3 are rejected when the Game is constructed. -/
theorem start_size4_impossible_bot_succeeds :
    (Start [WithSize 4, WithImpossibleBot PlayerOne]).isOk = true := by rfl

/-- C3 amended: for every board size N with 3 < N and N at most 255 and a
valid bot player, Start configured with the impossible bot succeeds (the
library itself never rejects the combination); the size-3 restriction of the
impossible bot lives in the bot registry constant MaxSizeImpossible and is
enforced by the CLI collaborator before the Game is constructed, whose check
rejects every such N. -/
theorem start_impossible_bot_large_size (n : Nat) (p : Player)
    (h3 : 3 < n) (h255 : n ≤ 255) (hp : Player.IsValid p = true) :
    (Start [WithSize n, WithImpossibleBot p]).isOk = true ∧
    cliBotSizeExceeded MaxSizeImpossible n = true := by
  have hn3 : ¬ (n < 3) := by omega
  have hn255 : ¬ (n > 255) := by omega
  constructor
  · simp only [Start, applyOpts, WithSize, WithImpossibleBot, withBot, NewImpossibleBot]
    simp [hn3, hn255, hp, Except.isOk, Except.toBool]
  · simp only [cliBotSizeExceeded, MaxSizeImpossible]
    simp
    omega

/-- C3 amended witness: the concrete instance at size 4 with PlayerTwo. -/
theorem start_impossible_bot_large_size_witness :
    (3 < 4 ∧ 4 ≤ 255 ∧ Player.IsValid PlayerTwo = true) ∧
    ((Start [WithSize 4, WithImpossibleBot PlayerTwo]).isOk = true ∧
      cliBotSizeExceeded MaxSizeImpossible 4 = true) :=
  ⟨by decide, start_impossible_bot_large_size 4 PlayerTwo (by decide) (by decide) (by decide)⟩

lemma play_err_unchanged (g : game) (t : Turn) (ab : Bool) (e : Err)
    (he : (g.play t ab).2.2.2 = some e) :
    (g.play t ab).1 = g ∧ (g.play t ab).2.1 = g.state ∧ (g.play t ab).2.2.1 = g.player := by
  unfold game.play at he ⊢
  cases h1 : g.validateBounds t.cell with
  | some e2 => simp [h1]
  | none =>
    cases h2 : g.validateTurn t ab with
    | some e2 => simp [h1, h2]
    | none =>
      simp only [h1, h2] at he
      split at he
      · simp at he
      · split at he <;> simp at he

/-- C2: whenever Play returns an error the game record (board, turn history,
state and current player) is unchanged and the returned State and Player are
the old ones; the error is categorised by the first failing validation in the
order of game.validateBounds and game.validateTurn: row out of bounds, column
out of bounds, game over, player not found, and invalid turn (the bot-owned
player, the wrong player on move, or an occupied cell). -/
theorem play_error_behaviour (g : game) (t : Turn) :
    (∀ e, (g.Play t).2.2.2 = some e →
      (g.Play t).1 = g ∧ (g.Play t).2.1 = g.state ∧ (g.Play t).2.2.1 = g.player) ∧
    (t.cell.row ≥ g.size → (g.Play t).2.2.2 = some .rowOutOfBounds) ∧
    (t.cell.row < g.size → t.cell.column ≥ g.size →
      (g.Play t).2.2.2 = some .colOutOfBounds) ∧
    (t.cell.row < g.size → t.cell.column < g.size → g.state ≠ .awaitingTurn →
      (g.Play t).2.2.2 = some .gameOver) ∧
    (t.cell.row < g.size → t.cell.column < g.size → g.state = .awaitingTurn →
      Player.IsValid t.player = false → (g.Play t).2.2.2 = some .playerNotFound) ∧
    (t.cell.row < g.size → t.cell.column < g.size → g.state = .awaitingTurn →
      Player.IsValid t.player = true →
      ((∃ b, g.bot = some b ∧ b.player = t.player) ∨ t.player ≠ g.player ∨
        cellAt g.board t.cell.row t.cell.column > 0) →
      (g.Play t).2.2.2 = some .turnInvalid) := by
  refine ⟨fun e he => play_err_unchanged g t false e he, ?_, ?_, ?_, ?_, ?_⟩
  · intro hr
    simp [game.Play, game.play, game.validateBounds, hr]
  · intro hr hc
    simp [game.Play, game.play, game.validateBounds, Nat.not_le.mpr hr, hc]
  · intro hr hc hst
    simp [game.Play, game.play, game.validateBounds, Nat.not_le.mpr hr, Nat.not_le.mpr hc,
      game.validateTurn, hst]
  · intro hr hc hst hval
    simp [game.Play, game.play, game.validateBounds, Nat.not_le.mpr hr, Nat.not_le.mpr hc,
      game.validateTurn, hst, hval]
  · intro hr hc hst hval hbad
    by_cases hb : (match g.bot with
      | some b => b.player == t.player
      | none => false) = true
    · simp [game.Play, game.play, game.validateBounds, Nat.not_le.mpr hr, Nat.not_le.mpr hc,
        game.validateTurn, hst, hval, hb]
    · by_cases hw : t.player = g.player
      · have hval2 : Player.IsValid g.player = true := by rw [← hw]; exact hval
        have hcell : cellAt g.board t.cell.row t.cell.column > 0 := by
          rcases hbad with ⟨b, hgb, hbp⟩ | hw2 | hcell
          · exact absurd (by rw [hgb]; simp [hbp]) hb
          · exact absurd hw hw2
          · exact hcell
        simp [game.Play, game.play, game.validateBounds, Nat.not_le.mpr hr, Nat.not_le.mpr hc,
          game.validateTurn, hst, hval, hval2, hb, hw, hcell]
      · simp [game.Play, game.play, game.validateBounds, Nat.not_le.mpr hr, Nat.not_le.mpr hc,
          game.validateTurn, hst, hval, hb, hw]

/-- gameW is the concrete default game used as witness input: the game Start
produces with no options. -/
def gameW : game :=
  { board := newBoard 3, bot := none, conditions := standardConditions, maxTurns := 9,
    player := PlayerOne, size := 3, state := .awaitingTurn, turns := [] }

/-- C2 witness: a turn with an out-of-bounds row on a fresh default game
leaves the game unchanged and reports the row out-of-bounds error. -/
theorem play_error_behaviour_witness :
    ((gameW.Play ⟨⟨0, 5⟩, 1⟩).2.2.2 = some .rowOutOfBounds) ∧
    ((gameW.Play ⟨⟨0, 5⟩, 1⟩).1 = gameW) :=
  ⟨(play_error_behaviour gameW ⟨⟨0, 5⟩, 1⟩).2.1 (by decide),
   ((play_error_behaviour gameW ⟨⟨0, 5⟩, 1⟩).1 Err.rowOutOfBounds
     ((play_error_behaviour gameW ⟨⟨0, 5⟩, 1⟩).2.1 (by decide))).1⟩

/-- C1: an accepted turn (in bounds, valid player, player on move, empty cell,
not a human submission for the bot's player, game awaiting a turn) is written
into its cell and appended to the history, and then exactly one resolution
applies in order: a winning turn moves to Won with the acting player as the
result, a full history (size squared turns) moves to Draw with player zero,
and otherwise the game stays AwaitingTurn with the other player on move. -/
theorem play_accepted_turn_resolution (g : game) (t : Turn)
    (hstate : g.state = .awaitingTurn)
    (hrow : t.cell.row < g.size) (hcol : t.cell.column < g.size)
    (hvalid : Player.IsValid t.player = true)
    (honmove : t.player = g.player)
    (hbot : ∀ b, g.bot = some b → b.player ≠ t.player)
    (hempty : cellAt g.board t.cell.row t.cell.column = 0)
    (hmax : g.maxTurns = g.size * g.size) :
    (g.Play t).2.2.2 = none ∧
    (g.Play t).1.board = g.board.setCell t.cell.row t.cell.column t.player ∧
    (g.Play t).1.turns = g.turns ++ [t] ∧
    (if Conditions.IsWinningTurn g.conditions
        (g.board.setCell t.cell.row t.cell.column t.player) t then
      (g.Play t).1.state = .won ∧ (g.Play t).2.2.1 = t.player ∧
        (g.Play t).1.player = t.player
    else if g.turns.length + 1 ≥ g.size * g.size then
      (g.Play t).1.state = .draw ∧ (g.Play t).2.2.1 = 0 ∧ (g.Play t).1.player = 0
    else
      (g.Play t).1.state = .awaitingTurn ∧ (g.Play t).2.2.1 = Player.Next t.player ∧
        (g.Play t).1.player = Player.Next t.player) := by
  have h1 : g.validateBounds t.cell = none := by
    simp [game.validateBounds, Nat.not_le.mpr hrow, Nat.not_le.mpr hcol]
  have hb : (match g.bot with
    | some b => b.player == t.player
    | none => false) = false := by
    cases hgb : g.bot with
    | none => rfl
    | some b => simpa using hbot b hgb
  have hvalid2 : Player.IsValid g.player = true := by rw [← honmove]; exact hvalid
  have hb2 : (match g.bot with
    | some b => b.player == g.player
    | none => false) = false := by rw [← honmove]; exact hb
  have h2 : g.validateTurn t false = none := by
    simp [game.validateTurn, hstate, hvalid, hvalid2, hb, hb2, honmove, hempty]
  unfold game.Play game.play
  rw [h1, h2]
  by_cases hwin : Conditions.IsWinningTurn g.conditions
      (g.board.setCell t.cell.row t.cell.column t.player) t = true
  · simp [hwin, ← honmove, hstate]
  · have hwin2 : Conditions.IsWinningTurn g.conditions
        (g.board.setCell t.cell.row t.cell.column t.player) t = false := by
      simpa using hwin
    by_cases hdraw : g.turns.length + 1 ≥ g.size * g.size
    · have hd3 : g.maxTurns ≤ g.turns.length + 1 := by omega
      simp [hwin2, hdraw, hd3]
    · have hd4 : ¬ (g.maxTurns ≤ g.turns.length + 1) := by omega
      simp [hwin2, hdraw, hd4, hstate]

/-- C1 witness: the first move of the default game lands on the board, is
recorded, and the game stays awaiting a turn with PlayerTwo on move. -/
theorem play_accepted_turn_resolution_witness :
    Player.IsValid (1 : Player) = true ∧
    ((gameW.Play ⟨⟨0, 0⟩, 1⟩).2.2.2 = none ∧
      (gameW.Play ⟨⟨0, 0⟩, 1⟩).1.board =
        gameW.board.setCell 0 0 1 ∧
      (gameW.Play ⟨⟨0, 0⟩, 1⟩).1.turns = gameW.turns ++ [⟨⟨0, 0⟩, 1⟩] ∧
      (if Conditions.IsWinningTurn gameW.conditions (gameW.board.setCell 0 0 1) ⟨⟨0, 0⟩, 1⟩ then
        (gameW.Play ⟨⟨0, 0⟩, 1⟩).1.state = .won ∧
          (gameW.Play ⟨⟨0, 0⟩, 1⟩).2.2.1 = 1 ∧ (gameW.Play ⟨⟨0, 0⟩, 1⟩).1.player = 1
      else if gameW.turns.length + 1 ≥ gameW.size * gameW.size then
        (gameW.Play ⟨⟨0, 0⟩, 1⟩).1.state = .draw ∧
          (gameW.Play ⟨⟨0, 0⟩, 1⟩).2.2.1 = 0 ∧ (gameW.Play ⟨⟨0, 0⟩, 1⟩).1.player = 0
      else
        (gameW.Play ⟨⟨0, 0⟩, 1⟩).1.state = .awaitingTurn ∧
          (gameW.Play ⟨⟨0, 0⟩, 1⟩).2.2.1 = Player.Next 1 ∧
          (gameW.Play ⟨⟨0, 0⟩, 1⟩).1.player = Player.Next 1)) :=
  ⟨by decide,
   play_accepted_turn_resolution gameW ⟨⟨0, 0⟩, 1⟩ rfl (by decide) (by decide) (by decide)
     rfl (by intro b hb; cases hb) (by decide) rfl⟩

/-- rowTurns lists the occupied cells of one row in scan order as turns (the
success output of the per-cell loop of Board.check). -/
def rowTurns (row : Nat) : Nat → List Player → List Turn
  | _, [] => []
  | col, p :: rest =>
    if p = 0 then rowTurns row (col + 1) rest
    else ⟨⟨col, row⟩, p⟩ :: rowTurns row (col + 1) rest

/-- boardTurns lists the occupied cells of the rows in row-major scan order. -/
def boardTurns : Nat → List (List Player) → List Turn
  | _, [] => []
  | row, cols :: rest => rowTurns row 0 cols ++ boardTurns (row + 1) rest

/-- rowMajorTurns lists the occupied cells of a board in row-major scan order
as turns. -/
def rowMajorTurns (b : Board) : List Turn := boardTurns 0 b

/-- countMarks counts the cells of a board holding the given player. -/
def countMarks (p : Player) (b : Board) : Nat :=
  (b.map fun cols => (cols.filter fun q => q = p).length).sum

/-- ValidPresetBoard states the four success conditions of Board.check: row
count in range, square rows, only valid-or-zero cells, and mark counts within
one of each other. -/
def ValidPresetBoard (b : Board) : Prop :=
  3 ≤ b.length ∧ b.length ≤ 255 ∧
  (∀ cols ∈ b, cols.length = b.length) ∧
  (∀ cols ∈ b, ∀ p ∈ cols, Player.IsValidOrZero p = true) ∧
  ((countMarks PlayerOne b : Int) - countMarks PlayerTwo b).natAbs ≤ 1

lemma checkCells_ok_of_valid (cols : List Player) : ∀ row col,
    (∀ p ∈ cols, Player.IsValidOrZero p = true) →
    checkCells row col cols = .ok (rowTurns row col cols) := by
  induction cols with
  | nil => intro row col _; rfl
  | cons p rest ih =>
    intro row col h
    have hp : Player.IsValidOrZero p = true := h p (List.mem_cons_self p rest)
    have hrest := fun q hq => h q (List.mem_cons_of_mem p hq)
    by_cases hz : p = 0
    · simp [checkCells, rowTurns, hz, ih row (col + 1) hrest]
    · have hv : Player.IsValid p = true := by
        simp [Player.IsValidOrZero, hz] at hp
        exact hp
      simp [checkCells, rowTurns, hz, hv, ih row (col + 1) hrest]

lemma checkCells_ok_elim (cols : List Player) : ∀ row col ts,
    checkCells row col cols = .ok ts →
    (∀ p ∈ cols, Player.IsValidOrZero p = true) ∧ ts = rowTurns row col cols := by
  induction cols with
  | nil =>
    intro row col ts h
    simp [checkCells] at h
    simp [rowTurns, h.symm]
  | cons p rest ih =>
    intro row col ts h
    by_cases hz : p = 0
    · simp only [checkCells, if_pos hz] at h
      obtain ⟨hrest, hts⟩ := ih row (col + 1) ts h
      refine ⟨?_, ?_⟩
      · intro q hq
        rcases List.mem_cons.mp hq with hq | hq
        · subst hq; simp [Player.IsValidOrZero, hz]
        · exact hrest q hq
      · simp [rowTurns, hz, hts]
    · by_cases hv : Player.IsValid p = true
      · simp only [checkCells, if_neg hz, if_pos hv] at h
        cases hrec : checkCells row (col + 1) rest with
        | error e => rw [hrec] at h; cases h
        | ok ts2 =>
          rw [hrec] at h
          obtain ⟨hrest, hts2⟩ := ih row (col + 1) ts2 hrec
          refine ⟨?_, ?_⟩
          · intro q hq
            rcases List.mem_cons.mp hq with hq | hq
            · subst hq; simp [Player.IsValidOrZero, hv]
            · exact hrest q hq
          · cases h
            simp [rowTurns, hz, hts2]
      · simp only [checkCells, if_neg hz] at h
        rw [if_neg hv] at h
        cases h

lemma checkRows_ok_of_valid (rows : List (List Player)) : ∀ size row,
    (∀ cols ∈ rows, cols.length = size ∧ ∀ p ∈ cols, Player.IsValidOrZero p = true) →
    checkRows size row rows = .ok (boardTurns row rows) := by
  induction rows with
  | nil => intro size row _; rfl
  | cons cols rest ih =>
    intro size row h
    obtain ⟨hlen, hvalid⟩ := h cols (List.mem_cons_self cols rest)
    have hrest := fun cs hcs => h cs (List.mem_cons_of_mem cols hcs)
    simp [checkRows, hlen, checkCells_ok_of_valid cols row 0 hvalid,
      ih size (row + 1) hrest, boardTurns]

lemma checkRows_ok_elim (rows : List (List Player)) : ∀ size row ts,
    checkRows size row rows = .ok ts →
    (∀ cols ∈ rows, cols.length = size ∧ ∀ p ∈ cols, Player.IsValidOrZero p = true) ∧
    ts = boardTurns row rows := by
  induction rows with
  | nil =>
    intro size row ts h
    simp [checkRows] at h
    simp [boardTurns, h.symm]
  | cons cols rest ih =>
    intro size row ts h
    by_cases hlen : cols.length = size
    · simp only [checkRows] at h
      rw [if_neg (fun hne => hne hlen)] at h
      cases hc : checkCells row 0 cols with
      | error e => rw [hc] at h; cases h
      | ok ts1 =>
        rw [hc] at h
        cases hr : checkRows size (row + 1) rest with
        | error e => rw [hr] at h; cases h
        | ok ts2 =>
          rw [hr] at h
          cases h
          obtain ⟨hvalid1, hts1⟩ := checkCells_ok_elim cols row 0 ts1 hc
          obtain ⟨hrest, hts2⟩ := ih size (row + 1) ts2 hr
          refine ⟨?_, ?_⟩
          · intro cs hcs
            rcases List.mem_cons.mp hcs with hcs | hcs
            · subst hcs; exact ⟨hlen, hvalid1⟩
            · exact hrest cs hcs
          · simp [boardTurns, hts1, hts2]
    · simp only [checkRows] at h
      rw [if_pos hlen] at h
      cases h

lemma countTurnsOf_append (p : Player) (ts ts2 : List Turn) :
    countTurnsOf p (ts ++ ts2) = countTurnsOf p ts + countTurnsOf p ts2 := by
  simp [countTurnsOf, List.filter_append]

lemma countTurnsOf_rowTurns (p : Player) (hp : p ≠ 0) (cols : List Player) :
    ∀ row col, countTurnsOf p (rowTurns row col cols) =
      (cols.filter fun q => q = p).length := by
  induction cols with
  | nil => intro row col; rfl
  | cons q rest ih =>
    intro row col
    by_cases hz : q = 0
    · subst hz
      have h0p : ¬ ((0 : Player) = p) := fun h => hp h.symm
      simp [rowTurns, List.filter_cons, h0p, ih row (col + 1)]
    · have ih2 := ih row (col + 1)
      simp only [countTurnsOf] at ih2
      by_cases hqp : q = p
      · subst hqp
        simp [rowTurns, countTurnsOf, List.filter_cons, hz, ih2]
      · simp [rowTurns, countTurnsOf, List.filter_cons, hz, hqp, ih2]

lemma countTurnsOf_boardTurns (p : Player) (hp : p ≠ 0) (rows : List (List Player)) :
    ∀ row, countTurnsOf p (boardTurns row rows) = countMarks p rows := by
  induction rows with
  | nil => intro row; rfl
  | cons cols rest ih =>
    intro row
    simp [boardTurns, countTurnsOf_append, countTurnsOf_rowTurns p hp cols row 0,
      ih (row + 1), countMarks]

/-- markDiff is the Int difference of PlayerOne and PlayerTwo marks on a
board. -/
def markDiff (b : Board) : Int :=
  (countMarks PlayerOne b : Int) - countMarks PlayerTwo b

lemma check_turnDiff (b : Board) (ts : List Turn) (h : checkRows b.length 0 b = .ok ts) :
    (countTurnsOf PlayerOne ts : Int) - countTurnsOf PlayerTwo ts = markDiff b := by
  obtain ⟨-, hts⟩ := checkRows_ok_elim b b.length 0 ts h
  rw [hts, countTurnsOf_boardTurns PlayerOne (by decide) b 0,
    countTurnsOf_boardTurns PlayerTwo (by decide) b 0, markDiff]

lemma check_ok_iff (b : Board) :
    (∃ bc, Board.check b = .ok bc) ↔ ValidPresetBoard b := by
  constructor
  · rintro ⟨bc, h⟩
    unfold Board.check at h
    by_cases h3 : b.length < 3
    · rw [if_pos h3] at h; cases h
    rw [if_neg h3] at h
    by_cases h255 : b.length > 255
    · rw [if_pos h255] at h; cases h
    rw [if_neg h255] at h
    cases hr : checkRows b.length 0 b with
    | error e => rw [hr] at h; cases h
    | ok ts =>
      rw [hr] at h
      dsimp only at h
      obtain ⟨hrows, -⟩ := checkRows_ok_elim b b.length 0 ts hr
      have hdiff := check_turnDiff b ts hr
      rw [markDiff] at hdiff
      set d : Int := (countTurnsOf PlayerOne ts : Int) - countTurnsOf PlayerTwo ts with hd
      refine ⟨by omega, by omega, fun cols hc => (hrows cols hc).1,
        fun cols hc => (hrows cols hc).2, ?_⟩
      rw [← hdiff]
      by_cases h1 : d = 1
      · rw [h1]; decide
      rw [if_neg h1] at h
      by_cases hgt : d > 1
      · rw [if_pos hgt] at h; cases h
      rw [if_neg hgt] at h
      by_cases hm1 : d = -1
      · rw [hm1]; decide
      rw [if_neg hm1] at h
      by_cases hlt : d < -1
      · rw [if_pos hlt] at h; cases h
      omega
  · rintro ⟨h3, h255, hlen, hcells, hdiff⟩
    have hrows : checkRows b.length 0 b = .ok (boardTurns 0 b) :=
      checkRows_ok_of_valid b b.length 0 fun cols hc => ⟨hlen cols hc, hcells cols hc⟩
    have hd := check_turnDiff b (boardTurns 0 b) hrows
    rw [markDiff] at hd
    unfold Board.check
    rw [if_neg (by omega : ¬ b.length < 3), if_neg (by omega : ¬ b.length > 255), hrows]
    dsimp only
    set d : Int := (countTurnsOf PlayerOne (boardTurns 0 b) : Int) -
      countTurnsOf PlayerTwo (boardTurns 0 b) with hdd
    have habs : d.natAbs ≤ 1 := by rw [hd]; exact hdiff
    by_cases h1 : d = 1
    · rw [if_pos h1]; exact ⟨_, rfl⟩
    rw [if_neg h1, if_neg (by omega : ¬ d > 1)]
    by_cases hm1 : d = -1
    · rw [if_pos hm1]; exact ⟨_, rfl⟩
    rw [if_neg hm1, if_neg (by omega : ¬ d < -1)]
    exact ⟨_, rfl⟩

lemma check_ok_fields (b : Board) (bc : BoardCheck) (h : Board.check b = .ok bc) :
    bc.size = b.length ∧ bc.maxTurns = b.length * b.length ∧
    bc.turns = rowMajorTurns b ∧
    (markDiff b = 1 → bc.starter = PlayerTwo) ∧
    (markDiff b = -1 → bc.starter = PlayerOne) ∧
    (markDiff b = 0 → bc.starter = 0) := by
  unfold Board.check at h
  by_cases h3 : b.length < 3
  · rw [if_pos h3] at h; cases h
  rw [if_neg h3] at h
  by_cases h255 : b.length > 255
  · rw [if_pos h255] at h; cases h
  rw [if_neg h255] at h
  cases hr : checkRows b.length 0 b with
  | error e => rw [hr] at h; cases h
  | ok ts =>
    rw [hr] at h
    dsimp only at h
    obtain ⟨-, hts⟩ := checkRows_ok_elim b b.length 0 ts hr
    have hdiff := check_turnDiff b ts hr
    set d : Int := (countTurnsOf PlayerOne ts : Int) - countTurnsOf PlayerTwo ts with hd
    by_cases h1 : d = 1
    · rw [if_pos h1] at h
      cases h
      refine ⟨rfl, rfl, hts, fun _ => rfl, fun hm => ?_, fun hz => ?_⟩
      · rw [← hdiff, h1] at hm; cases hm
      · rw [← hdiff, h1] at hz; cases hz
    rw [if_neg h1] at h
    by_cases hgt : d > 1
    · rw [if_pos hgt] at h; cases h
    rw [if_neg hgt] at h
    by_cases hm1 : d = -1
    · rw [if_pos hm1] at h
      cases h
      refine ⟨rfl, rfl, hts, fun h1b => ?_, fun _ => rfl, fun hz => ?_⟩
      · rw [← hdiff, hm1] at h1b; cases h1b
      · rw [← hdiff, hm1] at hz; cases hz
    rw [if_neg hm1] at h
    by_cases hlt : d < -1
    · rw [if_pos hlt] at h; cases h
    rw [if_neg hlt] at h
    cases h
    refine ⟨rfl, rfl, hts, fun h1b => ?_, fun hmb => ?_, fun _ => rfl⟩
    · rw [← hdiff] at h1b; exact absurd h1b h1
    · rw [← hdiff] at hmb; exact absurd hmb hm1

/-- C6: WithBoard fails with the invalid-option error exactly when the board
has fewer than 3 or more than 255 rows, a row whose column count differs from
the row count, a non-zero cell that is not a valid player, or mark counts
differing by more than one; on success it installs the board, sets the size to
the row count, the turn ceiling to its square, the history to the occupied
cells in row-major scan order, and the starter to PlayerTwo when PlayerOne
leads by one, to PlayerOne when PlayerTwo leads by one, and leaves the player
untouched when the counts are equal. -/
theorem withBoard_option_behaviour (b : Board) (g : game) :
    ((WithBoard b g = .error .optionInvalid) ↔ ¬ ValidPresetBoard b) ∧
    (∀ g2, WithBoard b g = .ok g2 →
      g2.size = b.length ∧ g2.maxTurns = b.length * b.length ∧
      g2.turns = rowMajorTurns b ∧ g2.board = b ∧
      (markDiff b = 1 → g2.player = PlayerTwo) ∧
      (markDiff b = -1 → g2.player = PlayerOne) ∧
      (markDiff b = 0 → g2.player = g.player)) := by
  constructor
  · constructor
    · intro herr hvalid
      obtain ⟨bc, hbc⟩ := (check_ok_iff b).mpr hvalid
      rw [WithBoard] at herr
      rw [hbc] at herr
      cases herr
    · intro hinvalid
      cases hbc : Board.check b with
      | error e => rw [WithBoard, hbc]
      | ok bc => exact absurd ((check_ok_iff b).mp ⟨bc, hbc⟩) hinvalid
  · intro g2 hok
    rw [WithBoard] at hok
    cases hbc : Board.check b with
    | error e => rw [hbc] at hok; cases hok
    | ok bc =>
      rw [hbc] at hok
      obtain ⟨hsize, hmax, hturns, h1, hm1, h0⟩ := check_ok_fields b bc hbc
      cases hok
      refine ⟨hsize, hmax, hturns, rfl, ?_, ?_, ?_⟩
      · intro hd
        simp [h1 hd, PlayerTwo]
      · intro hd
        simp [hm1 hd, PlayerOne]
      · intro hd
        simp [h0 hd]

/-- bW is the concrete witness board: one PlayerOne mark at the origin. -/
def bW : Board := [[1, 0, 0], [0, 0, 0], [0, 0, 0]]

/-- gB is the game WithBoard bW produces from the default draft gameW. -/
def gB : game :=
  { board := bW, bot := none, conditions := standardConditions, maxTurns := 9,
    player := PlayerTwo, size := 3, state := .awaitingTurn, turns := [⟨⟨0, 0⟩, 1⟩] }

/-- C6 witness: on the concrete one-mark board, WithBoard derives size 3, the
single-turn history, and PlayerTwo as starter. -/
theorem withBoard_option_behaviour_witness :
    gB.size = 3 ∧ gB.turns = rowMajorTurns bW ∧ gB.player = PlayerTwo :=
  ⟨((withBoard_option_behaviour bW gameW).2 gB rfl).1,
   ((withBoard_option_behaviour bW gameW).2 gB rfl).2.2.1,
   ((withBoard_option_behaviour bW gameW).2 gB rfl).2.2.2.2.1 (by decide)⟩

/-- applyTurns writes a list of turns onto a board in order (each turn's
player into its cell). -/
def applyTurns : Board → List Turn → Board
  | b, [] => b
  | b, t :: ts => applyTurns (b.setCell t.cell.row t.cell.column t.player) ts

/-- replayTurns submits a list of turns in order through the unprivileged Play
path, keeping whatever game each submission produces. -/
def replayTurns : game → List Turn → game
  | g, [] => g
  | g, t :: ts => replayTurns (g.Play t).1 ts

lemma setCell_length (b : Board) (r c : Nat) (p : Player) :
    (b.setCell r c p).length = b.length := by
  simp [Board.setCell]

lemma setCell_row_ne (b : Board) (r c : Nat) (p : Player) (i : Nat) (h : r ≠ i) :
    (b.setCell r c p).getD i [] = b.getD i [] := by
  simp [Board.setCell, List.getD_eq_getElem?_getD, List.getElem?_set_ne h]

lemma setCell_row_self (b : Board) (r c : Nat) (p : Player) (h : r < b.length) :
    (b.setCell r c p).getD r [] = (b.getD r []).set c p := by
  simp [Board.setCell, List.getD_eq_getElem?_getD, List.getElem?_set_self, h]

lemma setCell_rowlen (b : Board) (r c : Nat) (p : Player) (i : Nat) :
    ((b.setCell r c p).getD i []).length = (b.getD i []).length := by
  by_cases hri : r = i
  · subst hri
    by_cases hr : r < b.length
    · rw [setCell_row_self b r c p hr]; simp
    · rw [Board.setCell, List.set_eq_of_length_le (by omega)]
  · rw [setCell_row_ne b r c p i hri]

lemma cellAt_setCell_self (b : Board) (r c : Nat) (p : Player)
    (hr : r < b.length) (hc : c < (b.getD r []).length) :
    cellAt (b.setCell r c p) r c = p := by
  rw [cellAt, setCell_row_self b r c p hr]
  have hc2 : c < (b[r]?.getD []).length := by
    simpa [List.getD_eq_getElem?_getD] using hc
  simp [List.getD_eq_getElem?_getD, List.getElem?_set_self hc2]

lemma cellAt_setCell_ne (b : Board) (r c : Nat) (p : Player) (r2 c2 : Nat)
    (h : ¬ (r = r2 ∧ c = c2)) :
    cellAt (b.setCell r c p) r2 c2 = cellAt b r2 c2 := by
  by_cases hr : r = r2
  · subst hr
    have hc : c ≠ c2 := fun hc => h ⟨rfl, hc⟩
    by_cases hlt : r < b.length
    · rw [cellAt, setCell_row_self b r c p hlt, cellAt]
      simp [List.getD_eq_getElem?_getD, List.getElem?_set_ne hc]
    · rw [cellAt, Board.setCell, List.set_eq_of_length_le (by omega)]
      rfl
  · rw [cellAt, setCell_row_ne b r c p r2 hr]
    rfl

lemma applyTurns_length (ts : List Turn) : ∀ B : Board,
    (applyTurns B ts).length = B.length := by
  induction ts with
  | nil => intro B; rfl
  | cons t rest ih =>
    intro B
    rw [applyTurns, ih, setCell_length]

lemma applyTurns_rowlen (ts : List Turn) : ∀ (B : Board) (i : Nat),
    ((applyTurns B ts).getD i []).length = (B.getD i []).length := by
  induction ts with
  | nil => intro B i; rfl
  | cons t rest ih =>
    intro B i
    rw [applyTurns, ih, setCell_rowlen]

lemma applyTurns_cellAt (b : Board) : ∀ (ts : List Turn) (B : Board),
    (∀ t ∈ ts, t.player = cellAt b t.cell.row t.cell.column ∧
      t.cell.row < B.length ∧ t.cell.column < (B.getD t.cell.row []).length) →
    ∀ r c, cellAt (applyTurns B ts) r c =
      if ∃ t ∈ ts, t.cell.row = r ∧ t.cell.column = c then cellAt b r c
      else cellAt B r c := by
  intro ts
  induction ts with
  | nil =>
    intro B _ r c
    simp [applyTurns]
  | cons t rest ih =>
    intro B hts r c
    obtain ⟨hplayer, hrow, hcol⟩ := hts t (List.mem_cons_self t rest)
    have hdims : ∀ t2 ∈ rest, t2.player = cellAt b t2.cell.row t2.cell.column ∧
        t2.cell.row < (B.setCell t.cell.row t.cell.column t.player).length ∧
        t2.cell.column <
          ((B.setCell t.cell.row t.cell.column t.player).getD t2.cell.row []).length := by
      intro t2 ht2
      obtain ⟨h1, h2, h3⟩ := hts t2 (List.mem_cons_of_mem t ht2)
      exact ⟨h1, by rw [setCell_length]; exact h2, by rw [setCell_rowlen]; exact h3⟩
    rw [applyTurns, ih _ hdims r c]
    by_cases hrest : ∃ t2 ∈ rest, t2.cell.row = r ∧ t2.cell.column = c
    · rw [if_pos hrest, if_pos ?_]
      obtain ⟨t2, ht2, h⟩ := hrest
      exact ⟨t2, List.mem_cons_of_mem t ht2, h⟩
    · rw [if_neg hrest]
      by_cases hthis : t.cell.row = r ∧ t.cell.column = c
      · rw [if_pos ⟨t, List.mem_cons_self t rest, hthis⟩]
        obtain ⟨h1, h2⟩ := hthis
        subst h1
        subst h2
        rw [cellAt_setCell_self B t.cell.row t.cell.column t.player hrow hcol]
        exact hplayer
      · rw [if_neg ?_, cellAt_setCell_ne B t.cell.row t.cell.column t.player r c hthis]
        rintro ⟨t2, ht2, h⟩
        rcases List.mem_cons.mp ht2 with ht2 | ht2
        · subst ht2; exact hthis h
        · exact hrest ⟨t2, ht2, h⟩

lemma rowTurns_mem (cols : List Player) : ∀ row col t,
    t ∈ rowTurns row col cols →
    t.cell.row = row ∧ ∃ j, t.cell.column = col + j ∧ j < cols.length ∧
      cols.getD j 0 = t.player ∧ t.player ≠ 0 := by
  induction cols with
  | nil => intro row col t ht; cases ht
  | cons p rest ih =>
    intro row col t ht
    by_cases hz : p = 0
    · rw [rowTurns, if_pos hz] at ht
      obtain ⟨hr, j, hc, hj, hget, hne⟩ := ih row (col + 1) t ht
      exact ⟨hr, j + 1, by omega, by simpa using hj, by simpa using hget, hne⟩
    · rw [rowTurns, if_neg hz] at ht
      rcases List.mem_cons.mp ht with ht | ht
      · subst ht
        exact ⟨rfl, 0, by simp, by simp, by simp, by simpa using hz⟩
      · obtain ⟨hr, j, hc, hj, hget, hne⟩ := ih row (col + 1) t ht
        exact ⟨hr, j + 1, by omega, by simpa using hj, by simpa using hget, hne⟩

lemma rowTurns_complete (cols : List Player) : ∀ row col j,
    j < cols.length → cols.getD j 0 ≠ 0 →
    ∃ t ∈ rowTurns row col cols, t.cell.row = row ∧ t.cell.column = col + j := by
  induction cols with
  | nil => intro row col j hj _; simp at hj
  | cons p rest ih =>
    intro row col j hj hne
    by_cases hz : p = 0
    · cases j with
      | zero => simp at hne; exact absurd hz hne
      | succ j2 =>
        obtain ⟨t, ht, hr, hc⟩ := ih row (col + 1) j2 (by simpa using hj) (by simpa using hne)
        exact ⟨t, by rw [rowTurns, if_pos hz]; exact ht, hr, by omega⟩
    · cases j with
      | zero =>
        refine ⟨⟨⟨col, row⟩, p⟩, ?_, rfl, by simp⟩
        rw [rowTurns, if_neg hz]
        exact List.mem_cons_self _ _
      | succ j2 =>
        obtain ⟨t, ht, hr, hc⟩ := ih row (col + 1) j2 (by simpa using hj) (by simpa using hne)
        refine ⟨t, ?_, hr, by omega⟩
        rw [rowTurns, if_neg hz]
        exact List.mem_cons_of_mem _ ht

lemma boardTurns_mem (rows : List (List Player)) : ∀ row0 t,
    t ∈ boardTurns row0 rows →
    ∃ i, t.cell.row = row0 + i ∧ i < rows.length ∧
      t.cell.column < (rows.getD i []).length ∧
      (rows.getD i []).getD t.cell.column 0 = t.player ∧ t.player ≠ 0 := by
  induction rows with
  | nil => intro row0 t ht; cases ht
  | cons cols rest ih =>
    intro row0 t ht
    rcases List.mem_append.mp ht with ht | ht
    · obtain ⟨hr, j, hc, hj, hget, hne⟩ := rowTurns_mem cols row0 0 t ht
      have hcj : t.cell.column = j := by omega
      refine ⟨0, by omega, by simp, ?_, ?_, hne⟩
      · simpa [hcj] using hj
      · simpa [hcj] using hget
    · obtain ⟨i, hr, hi, hc, hget, hne⟩ := ih (row0 + 1) t ht
      exact ⟨i + 1, by omega, by simpa using hi, by simpa using hc,
        by simpa using hget, hne⟩

lemma boardTurns_complete (rows : List (List Player)) : ∀ row0 i c,
    i < rows.length → c < (rows.getD i []).length → (rows.getD i []).getD c 0 ≠ 0 →
    ∃ t ∈ boardTurns row0 rows, t.cell.row = row0 + i ∧ t.cell.column = c := by
  induction rows with
  | nil => intro row0 i c hi _ _; simp at hi
  | cons cols rest ih =>
    intro row0 i c hi hc hne
    cases i with
    | zero =>
      obtain ⟨t, ht, hr, hcol⟩ :=
        rowTurns_complete cols row0 0 c (by simpa using hc) (by simpa using hne)
      exact ⟨t, List.mem_append.mpr (.inl ht), by omega, by omega⟩
    | succ i2 =>
      obtain ⟨t, ht, hr, hcol⟩ :=
        ih (row0 + 1) i2 c (by simpa using hi) (by simpa using hc) (by simpa using hne)
      exact ⟨t, List.mem_append.mpr (.inr ht), by omega, hcol⟩

lemma rowMajorTurns_mem (b : Board) (t : Turn) (ht : t ∈ rowMajorTurns b) :
    t.cell.row < b.length ∧ t.cell.column < (b.getD t.cell.row []).length ∧
    cellAt b t.cell.row t.cell.column = t.player ∧ t.player ≠ 0 := by
  obtain ⟨i, hr, hi, hc, hget, hne⟩ := boardTurns_mem b 0 t ht
  have hri : t.cell.row = i := by omega
  subst hri
  exact ⟨hi, hc, hget, hne⟩

lemma rowMajorTurns_complete (b : Board) (r c : Nat) (hr : r < b.length)
    (hc : c < (b.getD r []).length) (hne : cellAt b r c ≠ 0) :
    ∃ t ∈ rowMajorTurns b, t.cell.row = r ∧ t.cell.column = c := by
  obtain ⟨t, ht, hrow, hcol⟩ := boardTurns_complete b 0 r c hr hc hne
  exact ⟨t, ht, by omega, hcol⟩

lemma board_ext (b1 b2 : Board) (hl : b1.length = b2.length)
    (hrow : ∀ i, i < b1.length → (b1.getD i []).length = (b2.getD i []).length)
    (hcell : ∀ r c, r < b1.length → c < (b1.getD r []).length →
      cellAt b1 r c = cellAt b2 r c) : b1 = b2 := by
  apply List.ext_getElem hl
  intro i h1 h2
  have hrl : (b1.getD i []).length = (b2.getD i []).length := hrow i h1
  have hb1 : b1.getD i [] = b1[i] := by
    simp [List.getD_eq_getElem?_getD, List.getElem?_eq_getElem h1]
  have hb2 : b2.getD i [] = b2[i] := by
    simp [List.getD_eq_getElem?_getD, List.getElem?_eq_getElem h2]
  apply List.ext_getElem (by rw [← hb1, ← hb2]; exact hrl)
  intro j hj1 hj2
  have hcj := hcell i j h1 (by rw [hb1]; exact hj1)
  rw [cellAt, cellAt, hb1, hb2] at hcj
  simpa [List.getD_eq_getElem?_getD, List.getElem?_eq_getElem hj1,
    List.getElem?_eq_getElem hj2] using hcj

lemma newBoard_getD (n i : Nat) :
    (newBoard n).getD i [] = if i < n then List.replicate n 0 else [] := by
  simp only [newBoard, List.getD_eq_getElem?_getD, List.getElem?_replicate]
  split <;> rfl

lemma newBoard_cellAt (n r c : Nat) : cellAt (newBoard n) r c = 0 := by
  rw [cellAt, newBoard_getD]
  split
  · simp [List.getD_eq_getElem?_getD, List.getElem?_replicate]
    split <;> rfl
  · rfl

/-- C8 amended: the turns Board.check derives from a valid preset board, when
written directly onto an empty board of the derived size (each turn's player
into its cell), reproduce the preset board exactly. -/
theorem preset_board_roundtrip (b : Board) (bc : BoardCheck)
    (h : Board.check b = .ok bc) :
    applyTurns (newBoard bc.size) bc.turns = b := by
  obtain ⟨hsize, -, hturns, -⟩ := check_ok_fields b bc h
  obtain ⟨-, -, hlen, -, -⟩ := (check_ok_iff b).mp ⟨bc, h⟩
  rw [hsize, hturns]
  have hsq : ∀ i, ((newBoard b.length).getD i []).length = (b.getD i []).length := by
    intro i
    rw [newBoard_getD]
    by_cases hi : i < b.length
    · rw [if_pos hi, List.length_replicate]
      have : b.getD i [] = b[i] := by
        simp [List.getD_eq_getElem?_getD, List.getElem?_eq_getElem hi]
      rw [this, hlen b[i] (List.getElem_mem hi)]
    · rw [if_neg hi]
      have : b.getD i [] = [] := by
        simp [List.getD_eq_getElem?_getD, List.getElem?_eq_none (Nat.le_of_not_lt hi)]
      rw [this]
  have hdims : ∀ t ∈ rowMajorTurns b, t.player = cellAt b t.cell.row t.cell.column ∧
      t.cell.row < (newBoard b.length).length ∧
      t.cell.column < ((newBoard b.length).getD t.cell.row []).length := by
    intro t ht
    obtain ⟨hr, hc, hget, -⟩ := rowMajorTurns_mem b t ht
    refine ⟨hget.symm, ?_, ?_⟩
    · simpa [newBoard] using hr
    · rw [hsq]; exact hc
  apply board_ext
  · rw [applyTurns_length]
    simp [newBoard]
  · intro i hi
    rw [applyTurns_rowlen, hsq]
  · intro r c hr hc
    rw [applyTurns_length] at hr
    rw [applyTurns_rowlen, hsq] at hc
    have hrb : r < b.length := by simpa [newBoard] using hr
    rw [applyTurns_cellAt b (rowMajorTurns b) (newBoard b.length) hdims r c]
    by_cases hex : ∃ t ∈ rowMajorTurns b, t.cell.row = r ∧ t.cell.column = c
    · rw [if_pos hex]
    · rw [if_neg hex, newBoard_cellAt]
      by_cases hz : cellAt b r c = 0
      · exact hz.symm
      · exact absurd (rowMajorTurns_complete b r c hrb hc hz) hex

/-- bC8 is a valid preset board whose derived row-major turn order does not
alternate players. -/
def bC8 : Board := [[1, 1, 0], [2, 2, 0], [0, 0, 0]]

/-- gC8 is the game Start produces from the preset board bC8. -/
def gC8 : game :=
  { board := bC8, bot := none, conditions := standardConditions, maxTurns := 9,
    player := PlayerOne, size := 3, state := .awaitingTurn,
    turns := [⟨⟨0, 0⟩, 1⟩, ⟨⟨1, 0⟩, 1⟩, ⟨⟨0, 1⟩, 2⟩, ⟨⟨1, 1⟩, 2⟩] }

/-- C8 counterexample: bC8 is a valid preset board, Start accepts it, yet
replaying its derived turns in stored order through turn submission onto a
fresh game of the same size does not reproduce bC8: the derived order has
PlayerOne twice in a row, so the second and fourth submissions are rejected
and only two marks land. -/
theorem replay_through_play_fails :
    Start [WithBoard bC8] = .ok gC8 ∧ ValidPresetBoard bC8 ∧
    (replayTurns gameW gC8.turns).board = [[1, 0, 0], [2, 0, 0], [0, 0, 0]] ∧
    (replayTurns gameW gC8.turns).board ≠ bC8 :=
  ⟨rfl, by unfold ValidPresetBoard; decide, by decide, by decide⟩

/-- C8 amended witness: the derived turns of bC8, applied directly to an empty
size-3 board, reproduce bC8. -/
theorem preset_board_roundtrip_witness :
    Board.check bC8 = .ok ⟨0, 3, 9, gC8.turns⟩ ∧
    applyTurns (newBoard 3) gC8.turns = bC8 :=
  ⟨rfl, preset_board_roundtrip bC8 ⟨0, 3, 9, gC8.turns⟩ rfl⟩

/-- winningCandidates lists the empty cells whose simulated placement by the
given player is reported winning, in the row-major order of FindEmpty. -/
def winningCandidates (bp : Player) (conds : Conditions) (board : Board) : List Cell :=
  (board.FindEmpty).filter fun c =>
    Conditions.IsWinningTurn conds ((board.Copy).setCell c.row c.column bp) ⟨c, bp⟩

/-- oppWinningCells lists, in the iteration order of the two nested loops of
the hard bot, every opponent reply discovered as winning. -/
def oppWinningCells (bp opp : Player) (conds : Conditions) (board : Board) : List Cell :=
  (board.FindEmpty).flatMap fun c =>
    (((board.Copy).setCell c.row c.column bp).FindEmpty).filter fun oc =>
      Conditions.IsWinningTurn conds
        ((((board.Copy).setCell c.row c.column bp).Copy).setCell oc.row oc.column opp)
        ⟨oc, opp⟩

lemma hardOppScan_eq (opp : Player) (conds : Conditions) (nb : Board) (ocs : List Cell) :
    ∀ acc, hardOppScan opp conds nb ocs acc =
      ((ocs.filter fun oc => Conditions.IsWinningTurn conds
          ((nb.Copy).setCell oc.row oc.column opp) ⟨oc, opp⟩).getLast?).or acc := by
  induction ocs with
  | nil => intro acc; simp [hardOppScan]
  | cons oc rest ih =>
    intro acc
    by_cases hw : Conditions.IsWinningTurn conds
        ((nb.Copy).setCell oc.row oc.column opp) ⟨oc, opp⟩ = true
    · rw [hardOppScan, if_pos hw, ih (some oc)]
      simp only [List.filter_cons]
      rw [if_pos hw]
      cases hl : (rest.filter fun oc => Conditions.IsWinningTurn conds
          ((nb.Copy).setCell oc.row oc.column opp) ⟨oc, opp⟩).getLast? with
      | none =>
        rw [List.getLast?_eq_none_iff] at hl
        rw [hl]
        rfl
      | some c =>
        have h2 : ((oc :: rest.filter fun oc => Conditions.IsWinningTurn conds
            ((nb.Copy).setCell oc.row oc.column opp) ⟨oc, opp⟩).getLast?) = some c := by
          cases he : rest.filter fun oc => Conditions.IsWinningTurn conds
              ((nb.Copy).setCell oc.row oc.column opp) ⟨oc, opp⟩ with
          | nil => rw [he] at hl; cases hl
          | cons b t => rw [he] at hl; rw [List.getLast?_cons_cons]; exact hl
        rw [h2]
        rfl
    · rw [hardOppScan, if_neg hw, ih acc]
      simp only [List.filter_cons]
      rw [if_neg hw]

lemma hardScan_no_win (bp opp : Player) (conds : Conditions) (board : Board)
    (cands : List Cell)
    (h : ∀ c ∈ cands, ¬ (Conditions.IsWinningTurn conds
      ((board.Copy).setCell c.row c.column bp) ⟨c, bp⟩ = true)) :
    ∀ acc, hardScan bp opp conds board cands acc =
      .inl (((cands.flatMap fun c =>
        (((board.Copy).setCell c.row c.column bp).FindEmpty).filter fun oc =>
          Conditions.IsWinningTurn conds
            ((((board.Copy).setCell c.row c.column bp).Copy).setCell oc.row oc.column opp)
            ⟨oc, opp⟩).getLast?).or acc) := by
  induction cands with
  | nil => intro acc; simp [hardScan]
  | cons c rest ih =>
    intro acc
    have hc := h c (List.mem_cons_self c rest)
    rw [hardScan, if_neg hc,
      hardOppScan_eq opp conds ((board.Copy).setCell c.row c.column bp) _ acc,
      ih (fun c2 h2 => h c2 (List.mem_cons_of_mem c h2)) _,
      List.flatMap_cons, List.getLast?_append, Option.or_assoc]

lemma hardScan_first_win (bp opp : Player) (conds : Conditions) (board : Board)
    (pre : List Cell) :
    ∀ (c : Cell) (post : List Cell) (acc : Option Cell),
    (∀ c2 ∈ pre, ¬ (Conditions.IsWinningTurn conds
      ((board.Copy).setCell c2.row c2.column bp) ⟨c2, bp⟩ = true)) →
    Conditions.IsWinningTurn conds
      ((board.Copy).setCell c.row c.column bp) ⟨c, bp⟩ = true →
    hardScan bp opp conds board (pre ++ c :: post) acc = .inr c := by
  induction pre with
  | nil =>
    intro c post acc _ hc
    rw [List.nil_append, hardScan, if_pos hc]
  | cons c0 rest ih =>
    intro c post acc hpre hc
    rw [List.cons_append, hardScan,
      if_neg (hpre c0 (List.mem_cons_self c0 rest))]
    exact ih c post _ (fun c2 h2 => hpre c2 (List.mem_cons_of_mem c0 h2)) hc

lemma filter_head?_decomp (p : Cell → Bool) (l : List Cell) : ∀ c,
    (l.filter p).head? = some c →
    ∃ pre post, l = pre ++ c :: post ∧ (∀ x ∈ pre, ¬ p x = true) ∧ p c = true := by
  induction l with
  | nil => intro c h; simp at h
  | cons a rest ih =>
    intro c h
    by_cases hp : p a = true
    · rw [List.filter_cons_of_pos hp] at h
      simp at h
      subst h
      exact ⟨[], rest, rfl, by simp, hp⟩
    · rw [List.filter_cons_of_neg hp] at h
      obtain ⟨pre, post, hl, hpre, hc⟩ := ih c h
      refine ⟨a :: pre, post, by rw [hl, List.cons_append], ?_, hc⟩
      intro x hx
      rcases List.mem_cons.mp hx with hx | hx
      · subst hx; exact hp
      · exact hpre x hx

lemma hardScan_no_win_all (bp opp : Player) (conds : Conditions) (board : Board)
    (hno : ∀ c ∈ board.FindEmpty, ¬ (Conditions.IsWinningTurn conds
      ((board.Copy).setCell c.row c.column bp) ⟨c, bp⟩ = true)) :
    hardScan bp opp conds board board.FindEmpty none =
      .inl ((oppWinningCells bp opp conds board).getLast?) := by
  rw [hardScan_no_win bp opp conds board _ hno none, Option.or_none]
  simp only [oppWinningCells]

/-- C5: the hard bot first returns the first empty cell (in the row-major
candidate scan) whose own placement wins; failing that, it returns the last
opponent-winning cell discovered across the nested candidate and reply loops
(later discoveries overwrite earlier ones); failing both, it falls back to the
random empty-cell draw, which for an in-range oracle value returns that
position of the empty-cell list. -/
theorem hardBot_turn_behaviour (bp : Player) (conds : Conditions) (board : Board)
    (mt : Nat) (lt : Option Turn) (r : Nat) :
    ((NewHardBot bp).player = bp ∧
      (NewHardBot bp).turnFn = hardBotTurn bp (Player.Next bp)) ∧
    (∀ c, (winningCandidates bp conds board).head? = some c →
      hardBotTurn bp (Player.Next bp) board ⟨conds, mt, lt⟩ r = .ok c) ∧
    (winningCandidates bp conds board = [] →
      ∀ c, (oppWinningCells bp (Player.Next bp) conds board).getLast? = some c →
        hardBotTurn bp (Player.Next bp) board ⟨conds, mt, lt⟩ r = .ok c) ∧
    (winningCandidates bp conds board = [] →
      oppWinningCells bp (Player.Next bp) conds board = [] →
      hardBotTurn bp (Player.Next bp) board ⟨conds, mt, lt⟩ r =
        .ok (Cells.Random board.FindEmpty r)) ∧
    (r < board.FindEmpty.length →
      Cells.Random board.FindEmpty r = (board.FindEmpty).getD r ⟨0, 0⟩) := by
  refine ⟨⟨rfl, rfl⟩, ?_, ?_, ?_, ?_⟩
  · intro c hc
    rw [winningCandidates] at hc
    obtain ⟨pre, post, hl, hpre, hcw⟩ := filter_head?_decomp _ _ c hc
    simp only [hardBotTurn]
    rw [hl, hardScan_first_win bp (Player.Next bp) conds board pre c post none hpre hcw]
  · intro hwin c hlast
    have hno : ∀ c2 ∈ board.FindEmpty, ¬ (Conditions.IsWinningTurn conds
        ((board.Copy).setCell c2.row c2.column bp) ⟨c2, bp⟩ = true) := by
      rw [winningCandidates] at hwin
      exact List.filter_eq_nil_iff.mp hwin
    simp only [hardBotTurn]
    rw [hardScan_no_win_all bp (Player.Next bp) conds board hno, hlast]
  · intro hwin hopp
    have hno : ∀ c2 ∈ board.FindEmpty, ¬ (Conditions.IsWinningTurn conds
        ((board.Copy).setCell c2.row c2.column bp) ⟨c2, bp⟩ = true) := by
      rw [winningCandidates] at hwin
      exact List.filter_eq_nil_iff.mp hwin
    simp only [hardBotTurn]
    rw [hardScan_no_win_all bp (Player.Next bp) conds board hno, hopp]
    rfl
  · intro hr
    rw [Cells.Random, if_neg (by omega), Nat.mod_eq_of_lt hr]

/-- C5 witness: on a concrete board where the bot cannot win at once and the
opponent threatens the bottom-right cell, the hard bot blocks it. -/
theorem hardBot_turn_behaviour_witness :
    (winningCandidates 1 standardConditions [[1, 0, 2], [0, 0, 2], [0, 0, 0]] = []) ∧
    ((oppWinningCells 1 (Player.Next 1) standardConditions
      [[1, 0, 2], [0, 0, 2], [0, 0, 0]]).getLast? = some ⟨2, 2⟩) ∧
    hardBotTurn 1 (Player.Next 1) [[1, 0, 2], [0, 0, 2], [0, 0, 0]]
      ⟨standardConditions, 9, none⟩ 0 = .ok ⟨2, 2⟩ :=
  ⟨by decide, by decide,
   (hardBot_turn_behaviour 1 standardConditions [[1, 0, 2], [0, 0, 2], [0, 0, 0]]
     9 none 0).2.2.1 (by decide) ⟨2, 2⟩ (by decide)⟩

lemma selFoldl_max (cl : List impossibleChoice) : ∀ mc xc : impossibleChoice,
    ((cl.foldl (fun (p : impossibleChoice × impossibleChoice) choice =>
        if true && choice.value > p.2.value then (p.1, choice)
        else if !true && choice.value < p.1.value then (choice, p.2)
        else p) (mc, xc)).2 = xc ∨
      (cl.foldl (fun (p : impossibleChoice × impossibleChoice) choice =>
        if true && choice.value > p.2.value then (p.1, choice)
        else if !true && choice.value < p.1.value then (choice, p.2)
        else p) (mc, xc)).2 ∈ cl) ∧
    xc.value ≤ (cl.foldl (fun (p : impossibleChoice × impossibleChoice) choice =>
        if true && choice.value > p.2.value then (p.1, choice)
        else if !true && choice.value < p.1.value then (choice, p.2)
        else p) (mc, xc)).2.value ∧
    ∀ ch ∈ cl, ch.value ≤ (cl.foldl (fun (p : impossibleChoice × impossibleChoice) choice =>
        if true && choice.value > p.2.value then (p.1, choice)
        else if !true && choice.value < p.1.value then (choice, p.2)
        else p) (mc, xc)).2.value := by
  induction cl with
  | nil => intro mc xc; simp
  | cons ch rest ih =>
    intro mc xc
    by_cases hgt : ch.value > xc.value
    · have hstep : (if true && ch.value > xc.value then (mc, ch)
          else if !true && ch.value < mc.value then (ch, xc) else (mc, xc)) = (mc, ch) := by
        simp [hgt]
      rw [List.foldl_cons]
      simp only [hstep]
      obtain ⟨hmem, hmono, hall⟩ := ih mc ch
      refine ⟨?_, by omega, ?_⟩
      · rcases hmem with hmem | hmem
        · exact .inr (by rw [hmem]; exact List.mem_cons_self ch rest)
        · exact .inr (List.mem_cons_of_mem ch hmem)
      · intro c hc
        rcases List.mem_cons.mp hc with hc | hc
        · subst hc; omega
        · exact hall c hc
    · have hstep : (if true && ch.value > xc.value then (mc, ch)
          else if !true && ch.value < mc.value then (ch, xc) else (mc, xc)) = (mc, xc) := by
        simp [hgt]
      rw [List.foldl_cons]
      simp only [hstep]
      obtain ⟨hmem, hmono, hall⟩ := ih mc xc
      refine ⟨?_, hmono, ?_⟩
      · rcases hmem with hmem | hmem
        · exact .inl hmem
        · exact .inr (List.mem_cons_of_mem ch hmem)
      · intro c hc
        rcases List.mem_cons.mp hc with hc | hc
        · subst hc; omega
        · exact hall c hc

lemma selFoldl_min (cl : List impossibleChoice) : ∀ mc xc : impossibleChoice,
    ((cl.foldl (fun (p : impossibleChoice × impossibleChoice) choice =>
        if false && choice.value > p.2.value then (p.1, choice)
        else if !false && choice.value < p.1.value then (choice, p.2)
        else p) (mc, xc)).1 = mc ∨
      (cl.foldl (fun (p : impossibleChoice × impossibleChoice) choice =>
        if false && choice.value > p.2.value then (p.1, choice)
        else if !false && choice.value < p.1.value then (choice, p.2)
        else p) (mc, xc)).1 ∈ cl) ∧
    (cl.foldl (fun (p : impossibleChoice × impossibleChoice) choice =>
        if false && choice.value > p.2.value then (p.1, choice)
        else if !false && choice.value < p.1.value then (choice, p.2)
        else p) (mc, xc)).1.value ≤ mc.value ∧
    ∀ ch ∈ cl, (cl.foldl (fun (p : impossibleChoice × impossibleChoice) choice =>
        if false && choice.value > p.2.value then (p.1, choice)
        else if !false && choice.value < p.1.value then (choice, p.2)
        else p) (mc, xc)).1.value ≤ ch.value := by
  induction cl with
  | nil => intro mc xc; simp
  | cons ch rest ih =>
    intro mc xc
    by_cases hlt : ch.value < mc.value
    · have hstep : (if false && ch.value > xc.value then (mc, ch)
          else if !false && ch.value < mc.value then (ch, xc) else (mc, xc)) = (ch, xc) := by
        simp [hlt]
      rw [List.foldl_cons]
      simp only [hstep]
      obtain ⟨hmem, hmono, hall⟩ := ih ch xc
      refine ⟨?_, by omega, ?_⟩
      · rcases hmem with hmem | hmem
        · exact .inr (by rw [hmem]; exact List.mem_cons_self ch rest)
        · exact .inr (List.mem_cons_of_mem ch hmem)
      · intro c hc
        rcases List.mem_cons.mp hc with hc | hc
        · subst hc; omega
        · exact hall c hc
    · have hstep : (if false && ch.value > xc.value then (mc, ch)
          else if !false && ch.value < mc.value then (ch, xc) else (mc, xc)) = (mc, xc) := by
        simp [hlt]
      rw [List.foldl_cons]
      simp only [hstep]
      obtain ⟨hmem, hmono, hall⟩ := ih mc xc
      refine ⟨?_, hmono, ?_⟩
      · rcases hmem with hmem | hmem
        · exact .inl hmem
        · exact .inr (List.mem_cons_of_mem ch hmem)
      · intro c hc
        rcases List.mem_cons.mp hc with hc | hc
        · subst hc; omega
        · exact hall c hc

lemma selectChoice_mem_max (maxT depth : Nat) (cl : List impossibleChoice)
    (hne : cl ≠ [])
    (hb : ∀ ch ∈ cl, -(((maxT : Int) + 1) ^ 2) < ch.value) :
    selectChoice true maxT depth cl ∈ cl ∧
    ∀ ch ∈ cl, ch.value ≤ (selectChoice true maxT depth cl).value := by
  obtain ⟨hmem, hmono, hall⟩ := selFoldl_max cl ⟨⟨0, 0⟩, depth, ((maxT : Int) + 1) ^ 2⟩
    ⟨⟨0, 0⟩, depth, -(((maxT : Int) + 1) ^ 2)⟩
  constructor
  · rcases hmem with hmem | hmem
    · exfalso
      obtain ⟨c, hc⟩ := List.exists_mem_of_ne_nil cl hne
      have hcle := hall c hc
      have hbc := hb c hc
      rw [hmem] at hcle
      simp only [] at hcle
      linarith
    · simpa only [selectChoice, if_true] using hmem
  · intro ch hch
    simpa only [selectChoice, if_true] using hall ch hch

lemma selectChoice_mem_min (maxT depth : Nat) (cl : List impossibleChoice)
    (hne : cl ≠ [])
    (hb : ∀ ch ∈ cl, ch.value < ((maxT : Int) + 1) ^ 2) :
    selectChoice false maxT depth cl ∈ cl ∧
    ∀ ch ∈ cl, (selectChoice false maxT depth cl).value ≤ ch.value := by
  obtain ⟨hmem, hmono, hall⟩ := selFoldl_min cl ⟨⟨0, 0⟩, depth, ((maxT : Int) + 1) ^ 2⟩
    ⟨⟨0, 0⟩, depth, -(((maxT : Int) + 1) ^ 2)⟩
  constructor
  · rcases hmem with hmem | hmem
    · exfalso
      obtain ⟨c, hc⟩ := List.exists_mem_of_ne_nil cl hne
      have hcle := hall c hc
      have hbc := hb c hc
      rw [hmem] at hcle
      simp only [] at hcle
      linarith
    · simpa only [selectChoice, if_false] using hmem
  · intro ch hch
    simpa only [selectChoice, if_false] using hall ch hch

lemma minimaxChildren_spec (bp : Player) (conds : Conditions) (maxT fuel : Nat) :
    ∀ (cands : List Cell) (board : Board) (mx : Bool) (player : Player) (depth : Nat)
      (cl : List impossibleChoice),
    minimaxChildren bp conds maxT fuel board mx player depth cands = some (.ok cl) →
    List.Forall₂ (fun c ch => ∃ ch0,
      minimaxF bp conds maxT fuel ((board.Copy).setCell c.row c.column player)
        ⟨c, player⟩ (!mx) (Player.Next player) (depth + 1) = some (.ok ch0) ∧
      ch = { ch0 with cell := c }) cands cl := by
  intro cands
  induction cands with
  | nil =>
    intro board mx player depth cl h
    simp [minimaxChildren, minimaxChildrenAux] at h
    subst h
    exact List.Forall₂.nil
  | cons c rest ih =>
    intro board mx player depth cl h
    rw [minimaxChildren, minimaxChildrenAux] at h
    cases hrec : minimaxF bp conds maxT fuel ((board.Copy).setCell c.row c.column player)
        ⟨c, player⟩ (!mx) (Player.Next player) (depth + 1) with
    | none => rw [hrec] at h; cases h
    | some r =>
      cases r with
      | error e => rw [hrec] at h; simp at h
      | ok ch0 =>
        rw [hrec] at h
        cases hrest : minimaxChildrenAux (minimaxF bp conds maxT fuel)
            board mx player depth rest with
        | none => rw [hrest] at h; simp at h
        | some r2 =>
          cases r2 with
          | error e => rw [hrest] at h; simp at h
          | ok cl2 =>
            rw [hrest] at h
            simp only [Option.some.injEq, Except.ok.injEq] at h
            subst h
            exact List.Forall₂.cons ⟨ch0, hrec, rfl⟩ (ih board mx player depth cl2 hrest)

lemma forall2_mem_right {α β : Type} {R : α → β → Prop} : ∀ {l1 : List α} {l2 : List β},
    List.Forall₂ R l1 l2 → ∀ b ∈ l2, ∃ a ∈ l1, R a b := by
  intro l1 l2 h
  induction h with
  | nil => intro b hb; cases hb
  | @cons a b l1t l2t hR hrest ih =>
    intro b2 hb2
    rcases List.mem_cons.mp hb2 with hb2 | hb2
    · exact ⟨a, List.mem_cons_self a l1t, hb2 ▸ hR⟩
    · obtain ⟨a2, ha2, hr⟩ := ih b2 hb2
      exact ⟨a2, List.mem_cons_of_mem a ha2, hr⟩

lemma minimax_value_bound (bp : Player) (conds : Conditions) (maxT : Nat)
    (hmaxT : 1 ≤ maxT) :
    ∀ (fuel : Nat) (board : Board) (lastTurn : Turn) (mx : Bool) (player : Player)
      (depth : Nat) (ch : impossibleChoice),
    depth + fuel ≤ 2 * maxT + 3 →
    minimaxF bp conds maxT fuel board lastTurn mx player depth = some (.ok ch) →
    -((maxT : Int) + 1) ≤ ch.value ∧ ch.value ≤ (maxT : Int) + 1 := by
  intro fuel
  induction fuel with
  | zero =>
    intro board lastTurn mx player depth ch _ h
    rw [minimaxF] at h
    cases h
  | succ f ih =>
    have hch : ∀ (cands : List Cell) (board : Board) (mx : Bool) (player : Player)
        (depth : Nat) (cl : List impossibleChoice),
        depth + 1 + f ≤ 2 * maxT + 3 →
        minimaxChildren bp conds maxT f board mx player depth cands = some (.ok cl) →
        ∀ c2 ∈ cl, -((maxT : Int) + 1) ≤ c2.value ∧ c2.value ≤ (maxT : Int) + 1 := by
      intro cands board mx player depth cl hd h c2 hc2
      have hf2 := minimaxChildren_spec bp conds maxT f cands board mx player depth cl h
      obtain ⟨c, hc, ch0, hrec, hcheq⟩ := forall2_mem_right hf2 c2 hc2
      have hb := ih _ _ _ _ _ _ (by omega) hrec
      rw [hcheq]
      exact hb
    intro board lastTurn mx player depth ch hd h
    rw [minimaxF] at h
    cases hw : Conditions.FindWinner conds board with
    | error e => simp only [hw] at h; simp at h
    | ok winner =>
      simp only [hw] at h
      by_cases h1 : winner = bp
      · rw [if_pos h1] at h
        simp only [Option.some.injEq, Except.ok.injEq] at h
        rw [← h]
        constructor <;> simp <;> omega
      rw [if_neg h1] at h
      by_cases h2 : winner = Player.Next bp
      · rw [if_pos h2] at h
        simp only [Option.some.injEq, Except.ok.injEq] at h
        rw [← h]
        constructor <;> simp <;> omega
      rw [if_neg h2] at h
      by_cases h3 : (board.FindEmpty).length = 0
      · rw [if_pos h3] at h
        simp only [Option.some.injEq, Except.ok.injEq] at h
        rw [← h]
        constructor <;> simp <;> omega
      rw [if_neg h3] at h
      cases hcr : minimaxChildrenAux (minimaxF bp conds maxT f)
          board mx player depth board.FindEmpty with
      | none => simp only [hcr] at h; simp at h
      | some r =>
        cases r with
        | error e => simp only [hcr] at h; simp at h
        | ok cl =>
          simp only [hcr, Option.some.injEq, Except.ok.injEq] at h
          have hclb := hch board.FindEmpty board mx player depth cl (by omega) hcr
          have hclne : cl ≠ [] := by
            intro hnil
            apply h3
            have hlen := (minimaxChildren_spec bp conds maxT f board.FindEmpty board
              mx player depth cl hcr).length_eq
            rw [hnil, List.length_nil] at hlen
            exact hlen
          have hsent : (maxT : Int) + 1 < ((maxT : Int) + 1) ^ 2 := by
            have hm : (1 : Int) ≤ (maxT : Int) := by exact_mod_cast hmaxT
            nlinarith
          cases mx with
          | true =>
            obtain ⟨hmem, -⟩ := selectChoice_mem_max maxT depth cl hclne
              (fun c2 hc2 => by have := (hclb c2 hc2).1; linarith)
            rw [← h]
            exact hclb _ hmem
          | false =>
            obtain ⟨hmem, -⟩ := selectChoice_mem_min maxT depth cl hclne
              (fun c2 hc2 => by have := (hclb c2 hc2).2; linarith)
            rw [← h]
            exact hclb _ hmem

/-- C4: minimax scoring and propagation while the winner scan succeeds: a win
for the bot's player scores maxTurns plus one minus depth, a win for the
opponent scores the negative of that, and a full board with no winner scores
zero, each annotated with the last turn's cell; an internal node recurses on
every empty candidate cell (each resulting child annotated with the cell that
produced it) and returns the selection that takes the maximum-valued child on
the bot's ply and the minimum-valued child on the opponent's ply; the root
call of the impossible bot returns the cell of that best-scored immediate
child. -/
theorem minimax_behaviour (bp : Player) (conds : Conditions) (maxT : Nat)
    (fuel : Nat) (board : Board) (lastTurn : Turn) (mx : Bool) (player : Player)
    (depth : Nat) :
    (Conditions.FindWinner conds board = .ok bp →
      minimaxF bp conds maxT (fuel + 1) board lastTurn mx player depth =
        some (.ok ⟨lastTurn.cell, depth, (maxT : Int) + 1 - depth⟩)) ∧
    (∀ w, Conditions.FindWinner conds board = .ok w → w ≠ bp → w = Player.Next bp →
      minimaxF bp conds maxT (fuel + 1) board lastTurn mx player depth =
        some (.ok ⟨lastTurn.cell, depth, -((maxT : Int) + 1) + depth⟩)) ∧
    (∀ w, Conditions.FindWinner conds board = .ok w → w ≠ bp → w ≠ Player.Next bp →
      board.FindEmpty = [] →
      minimaxF bp conds maxT (fuel + 1) board lastTurn mx player depth =
        some (.ok ⟨lastTurn.cell, depth, 0⟩)) ∧
    (∀ w cl, Conditions.FindWinner conds board = .ok w → w ≠ bp →
      w ≠ Player.Next bp → board.FindEmpty ≠ [] →
      minimaxChildren bp conds maxT fuel board mx player depth board.FindEmpty =
        some (.ok cl) →
      minimaxF bp conds maxT (fuel + 1) board lastTurn mx player depth =
        some (.ok (selectChoice mx maxT depth cl)) ∧
      List.Forall₂ (fun c ch => ∃ ch0,
        minimaxF bp conds maxT fuel ((board.Copy).setCell c.row c.column player)
          ⟨c, player⟩ (!mx) (Player.Next player) (depth + 1) = some (.ok ch0) ∧
        ch = { ch0 with cell := c }) board.FindEmpty cl ∧
      (1 ≤ maxT → depth + 1 + fuel ≤ 2 * maxT + 3 →
        (mx = true → selectChoice mx maxT depth cl ∈ cl ∧
          ∀ ch ∈ cl, ch.value ≤ (selectChoice mx maxT depth cl).value) ∧
        (mx = false → selectChoice mx maxT depth cl ∈ cl ∧
          ∀ ch ∈ cl, (selectChoice mx maxT depth cl).value ≤ ch.value))) ∧
    (∀ (view : BotView) (ch : impossibleChoice) (r : Nat),
      minimaxF bp view.conditions view.maxTurns (board.FindEmpty.length + 1) board
        (view.lastTurn.getD ⟨⟨0, 0⟩, 0⟩) true bp 0 = some (.ok ch) →
      impossibleBotTurn bp board view r = .ok ch.cell) := by
  refine ⟨?_, ?_, ?_, ?_, ?_⟩
  · intro hw
    rw [minimaxF]
    simp [hw]
  · intro w hw hne heq
    rw [minimaxF]
    simp only [hw]
    rw [if_neg hne, if_pos heq]
  · intro w hw hne1 hne2 hempty
    rw [minimaxF]
    simp [hw, hne1, hne2, hempty]
  · intro w cl hw hne1 hne2 hempty hcr
    have hlen0 : ¬ ((board.FindEmpty).length = 0) := by
      intro h0
      exact hempty (List.length_eq_zero.mp h0)
    have hcr2 : minimaxChildrenAux (minimaxF bp conds maxT fuel)
        board mx player depth board.FindEmpty = some (.ok cl) := hcr
    refine ⟨?_, minimaxChildren_spec bp conds maxT fuel board.FindEmpty board
      mx player depth cl hcr, ?_⟩
    · rw [minimaxF]
      simp [hw, hne1, hne2, hlen0, hcr2]
    · intro hmaxT hdf
      have hf2 := minimaxChildren_spec bp conds maxT fuel board.FindEmpty board
        mx player depth cl hcr
      have hclb : ∀ c2 ∈ cl, -((maxT : Int) + 1) ≤ c2.value ∧
          c2.value ≤ (maxT : Int) + 1 := by
        intro c2 hc2
        obtain ⟨c, hc, ch0, hrec, hcheq⟩ := forall2_mem_right hf2 c2 hc2
        have hb := minimax_value_bound bp conds maxT hmaxT fuel _ _ _ _ _ ch0
          (by omega) hrec
        rw [hcheq]
        exact hb
      have hclne : cl ≠ [] := by
        intro hnil
        have hlen := hf2.length_eq
        rw [hnil, List.length_nil] at hlen
        exact hlen0 hlen
      have hsent : (maxT : Int) + 1 < ((maxT : Int) + 1) ^ 2 := by
        have hm : (1 : Int) ≤ (maxT : Int) := by exact_mod_cast hmaxT
        nlinarith
      constructor
      · intro hmx
        subst hmx
        exact selectChoice_mem_max maxT depth cl hclne
          (fun c2 hc2 => by have := (hclb c2 hc2).1; linarith)
      · intro hmx
        subst hmx
        exact selectChoice_mem_min maxT depth cl hclne
          (fun c2 hc2 => by have := (hclb c2 hc2).2; linarith)
  · intro view ch r hmin
    rw [impossibleBotTurn]
    simp [hmin]

/-- C4 witness: on a concrete near-full board the impossible bot returns the
cell of the best-scored immediate child computed by the root minimax call. -/
theorem minimax_behaviour_witness :
    impossibleBotTurn 2 [[1, 2, 1], [1, 2, 0], [2, 1, 0]]
      ⟨standardConditions, 9, some ⟨⟨0, 2⟩, 2⟩⟩ 0 = .ok ⟨2, 1⟩ :=
  (minimax_behaviour 2 standardConditions 9 0 [[1, 2, 1], [1, 2, 0], [2, 1, 0]]
      ⟨⟨0, 0⟩, 0⟩ true 2 0).2.2.2.2
    ⟨standardConditions, 9, some ⟨⟨0, 2⟩, 2⟩⟩ ⟨⟨2, 1⟩, 2, 0⟩ 0 rfl

/-- WithPack mirrors Go WithPack: the bundled options applied in order with
the first failure short-circuiting. -/
def WithPack (pack : List GOption) : GOption := fun g => applyOpts g pack

/-- countOccupied counts the non-zero cells of a board. -/
def countOccupied (b : Board) : Nat :=
  (b.map fun cols => (cols.filter fun p => p ≠ 0).length).sum

lemma countOccupied_newBoard (n : Nat) : countOccupied (newBoard n) = 0 := by
  induction n with
  | zero => rfl
  | succ m ih =>
    have : (List.replicate m (List.replicate (m + 1) (0 : Player))).map
        (fun cols => (cols.filter fun p => p ≠ 0).length) =
        List.replicate m 0 := by
      rw [List.map_replicate]
      congr 1
      simp
    simp [countOccupied, newBoard, List.replicate_succ, this]

lemma rowTurns_length (cols : List Player) : ∀ row col,
    (rowTurns row col cols).length = (cols.filter fun p => p ≠ 0).length := by
  induction cols with
  | nil => intro row col; rfl
  | cons p rest ih =>
    intro row col
    by_cases hz : p = 0
    · simp [rowTurns, hz, List.filter_cons, ih row (col + 1)]
    · simp [rowTurns, hz, List.filter_cons, ih row (col + 1)]

lemma boardTurns_length (rows : List (List Player)) : ∀ row,
    (boardTurns row rows).length = countOccupied rows := by
  induction rows with
  | nil => intro row; rfl
  | cons cols rest ih =>
    intro row
    simp [boardTurns, rowTurns_length, ih (row + 1), countOccupied]

lemma filter_ne_set_length (l : List Player) : ∀ (c : Nat) (p : Player),
    c < l.length → l.getD c 0 = 0 → p ≠ 0 →
    ((l.set c p).filter fun q => q ≠ 0).length =
      ((l.filter fun q => q ≠ 0)).length + 1 := by
  induction l with
  | nil => intro c p hc; simp at hc
  | cons q rest ih =>
    intro c p hc hz hp
    cases c with
    | zero =>
      simp at hz
      simp [List.set, List.filter_cons, hz, hp]
    | succ c2 =>
      have hz2 : rest.getD c2 0 = 0 := by simpa using hz
      have hc2 : c2 < rest.length := by simpa using hc
      have ih2 := ih c2 p hc2 hz2 hp
      by_cases hq : q = 0
      · simp [List.set, List.filter_cons, hq]
        simpa using ih2
      · simp [List.set, List.filter_cons, hq]
        simpa using ih2

lemma countOccupied_setCell (b : Board) : ∀ (r c : Nat) (p : Player),
    r < b.length → c < (b.getD r []).length → cellAt b r c = 0 → p ≠ 0 →
    countOccupied (b.setCell r c p) = countOccupied b + 1 := by
  induction b with
  | nil => intro r c p hr; simp at hr
  | cons row rest ih =>
    intro r c p hr hc hz hp
    cases r with
    | zero =>
      have hc0 : c < row.length := by simpa using hc
      have hz0 : row.getD c 0 = 0 := by simpa [cellAt] using hz
      have hrow := filter_ne_set_length row c p hc0 hz0 hp
      simp only [Board.setCell, List.getD_cons_zero, List.set_cons_zero]
      simp [countOccupied]
      simp at hrow
      omega
    | succ r2 =>
      have hr2 : r2 < rest.length := by simpa using hr
      have hc2 : c < (rest.getD r2 []).length := by simpa using hc
      have hz2 : cellAt rest r2 c = 0 := by simpa [cellAt] using hz
      have ih2 := ih r2 c p hr2 hc2 hz2 hp
      simp only [Board.setCell] at ih2 ⊢
      simp only [List.getD_cons_succ, List.set_cons_succ]
      simp [countOccupied] at ih2 ⊢
      omega

/-- game.SInv is the strengthened reachability invariant: a square board of
the game's size, a history as long as the occupied-cell count, every recorded
turn present on the board, and no zero-player turns. -/
def game.SInv (g : game) : Prop :=
  g.board.length = g.size ∧
  (∀ cols ∈ g.board, cols.length = g.size) ∧
  g.turns.length = countOccupied g.board ∧
  (∀ t ∈ g.turns, cellAt g.board t.cell.row t.cell.column = t.player ∧ t.player ≠ 0)

/-- DraftInv holds of the draft game while options run: either no board has
been installed (and no turns), or a checked preset board and its derived
history are installed. -/
def DraftInv (g : game) : Prop :=
  (g.board = [] ∧ g.turns = []) ∨
  (g.board.length = g.size ∧ (∀ cols ∈ g.board, cols.length = g.size) ∧
    g.turns = rowMajorTurns g.board)

/-- PreservesDraft states that a configuration option keeps DraftInv. -/
def PreservesDraft (o : GOption) : Prop :=
  ∀ g g2, DraftInv g → o g = .ok g2 → DraftInv g2

lemma preservesDraft_withBoard (b : Board) : PreservesDraft (WithBoard b) := by
  intro g g2 _ h
  rw [WithBoard] at h
  cases hbc : Board.check b with
  | error e => rw [hbc] at h; cases h
  | ok bc =>
    rw [hbc] at h
    simp only [Except.ok.injEq] at h
    obtain ⟨hsize, -, hturns, -⟩ := check_ok_fields b bc hbc
    obtain ⟨-, -, hrows, -, -⟩ := (check_ok_iff b).mp ⟨bc, hbc⟩
    subst h
    refine .inr ⟨hsize.symm, fun cols hc => ?_, hturns⟩
    show cols.length = bc.size
    rw [hsize]
    exact hrows cols hc

lemma preservesDraft_withSize (n : Nat) : PreservesDraft (WithSize n) := by
  intro g g2 hd h
  rw [WithSize] at h
  by_cases hb : g.board ≠ []
  · rw [if_pos hb] at h
    cases h
    exact hd
  · rw [if_neg hb] at h
    push_neg at hb
    by_cases h3 : n < 3
    · rw [if_pos h3] at h; cases h
    rw [if_neg h3] at h
    by_cases h255 : n > 255
    · rw [if_pos h255] at h; cases h
    rw [if_neg h255] at h
    cases h
    left
    refine ⟨hb, ?_⟩
    rcases hd with ⟨-, ht⟩ | ⟨-, -, ht⟩
    · exact ht
    · rw [ht, hb]; rfl

lemma preservesDraft_withStarterPlayer (p : Player) :
    PreservesDraft (WithStarterPlayer p) := by
  intro g g2 hd h
  rw [WithStarterPlayer] at h
  by_cases h0 : g.player > 0
  · rw [if_pos h0] at h; cases h; exact hd
  rw [if_neg h0] at h
  by_cases hv : ¬ Player.IsValid p
  · rw [if_pos hv] at h; cases h
  rw [if_neg hv] at h
  cases h
  rcases hd with ⟨h1, h2⟩ | ⟨h1, h2, h3⟩
  · exact .inl ⟨h1, h2⟩
  · exact .inr ⟨h1, h2, h3⟩

lemma preservesDraft_withBot (b : BotSpec) : PreservesDraft (withBot b) := by
  intro g g2 hd h
  rw [withBot] at h
  cases hgb : g.bot with
  | some b0 => rw [hgb] at h; cases h; exact hd
  | none =>
    rw [hgb] at h
    by_cases hv : ¬ Player.IsValid b.player
    · rw [if_pos hv] at h; cases h
    rw [if_neg hv] at h
    cases h
    rcases hd with ⟨h1, h2⟩ | ⟨h1, h2, h3⟩
    · exact .inl ⟨h1, h2⟩
    · exact .inr ⟨h1, h2, h3⟩

lemma preservesDraft_withCondition (c : Condition) :
    PreservesDraft (WithCondition c) := by
  intro g g2 hd h
  rw [WithCondition] at h
  cases h
  rcases hd with ⟨h1, h2⟩ | ⟨h1, h2, h3⟩
  · exact .inl ⟨h1, h2⟩
  · exact .inr ⟨h1, h2, h3⟩

lemma preservesDraft_withConditions (cs : Conditions) :
    PreservesDraft (WithConditions cs) := by
  intro g g2 hd h
  rw [WithConditions] at h
  cases h
  rcases hd with ⟨h1, h2⟩ | ⟨h1, h2, h3⟩
  · exact .inl ⟨h1, h2⟩
  · exact .inr ⟨h1, h2, h3⟩

lemma applyOpts_preservesDraft : ∀ (opts : List GOption) (g g2 : game),
    (∀ o ∈ opts, PreservesDraft o) → DraftInv g → applyOpts g opts = .ok g2 →
    DraftInv g2 := by
  intro opts
  induction opts with
  | nil =>
    intro g g2 _ hd h
    rw [applyOpts] at h
    cases h
    exact hd
  | cons o rest ih =>
    intro g g2 hall hd h
    rw [applyOpts] at h
    cases ho : o g with
    | error e => rw [ho] at h; cases h
    | ok gmid =>
      rw [ho] at h
      exact ih gmid g2 (fun o2 h2 => hall o2 (List.mem_cons_of_mem o h2))
        (hall o (List.mem_cons_self o rest) g gmid hd ho) h

lemma preservesDraft_withPack (pk : List GOption)
    (hall : ∀ o ∈ pk, PreservesDraft o) : PreservesDraft (WithPack pk) := by
  intro g g2 hd h
  exact applyOpts_preservesDraft pk g g2 hall hd h

lemma rowMajorTurns_SInv_pieces (g : game)
    (h1 : g.board.length = g.size) (h2 : ∀ cols ∈ g.board, cols.length = g.size)
    (h3 : g.turns = rowMajorTurns g.board) :
    g.turns.length = countOccupied g.board ∧
    ∀ t ∈ g.turns, cellAt g.board t.cell.row t.cell.column = t.player ∧
      t.player ≠ 0 := by
  constructor
  · rw [h3, rowMajorTurns, boardTurns_length]
  · intro t ht
    rw [h3] at ht
    obtain ⟨-, -, hget, hne⟩ := rowMajorTurns_mem g.board t ht
    exact ⟨hget, hne⟩

lemma start_SInv (opts : List GOption) (hopts : ∀ o ∈ opts, PreservesDraft o)
    (g : game) (h : Start opts = .ok g) : g.SInv := by
  rw [Start] at h
  cases happ : applyOpts
      { board := [], bot := none, conditions := standardConditions, maxTurns := 9,
        player := 0, size := 3, state := .awaitingTurn, turns := [] } opts with
  | error e => simp only [happ] at h; cases h
  | ok gmid =>
    simp only [happ] at h
    have hd : DraftInv gmid :=
      applyOpts_preservesDraft opts _ gmid hopts (.inl ⟨rfl, rfl⟩) happ
    by_cases hb : gmid.board = []
    · rw [if_pos hb] at h
      simp only [Except.ok.injEq] at h
      subst h
      have hturns : gmid.turns = [] := by
        rcases hd with ⟨-, ht⟩ | ⟨-, -, ht⟩
        · exact ht
        · rw [ht, hb]; rfl
      refine ⟨by simp [newBoard], ?_, ?_, ?_⟩
      · intro cols hc
        have := List.eq_of_mem_replicate hc
        rw [this]
        simp
      · show gmid.turns.length = countOccupied (newBoard gmid.size)
        rw [hturns, countOccupied_newBoard]
        rfl
      · show ∀ t ∈ gmid.turns, _
        rw [hturns]
        intro t ht
        cases ht
    · rw [if_neg hb] at h
      have hd2 : gmid.board.length = gmid.size ∧
          (∀ cols ∈ gmid.board, cols.length = gmid.size) ∧
          gmid.turns = rowMajorTurns gmid.board := by
        rcases hd with ⟨hbe, -⟩ | h2
        · exact absurd hbe hb
        · exact h2
      obtain ⟨hp1, hp2, hp3⟩ := hd2
      obtain ⟨hc1, hc2⟩ := rowMajorTurns_SInv_pieces gmid hp1 hp2 hp3
      cases hfw : Conditions.FindWinner gmid.conditions gmid.board with
      | error e => simp only [hfw] at h; cases h
      | ok winner =>
        simp only [hfw] at h
        by_cases hw0 : winner > 0
        · rw [if_pos hw0] at h
          simp only [Except.ok.injEq] at h
          subst h
          exact ⟨hp1, hp2, hc1, hc2⟩
        rw [if_neg hw0] at h
        by_cases hdr : gmid.turns.length ≥ gmid.maxTurns
        · rw [if_pos hdr] at h
          simp only [Except.ok.injEq] at h
          subst h
          exact ⟨hp1, hp2, hc1, hc2⟩
        rw [if_neg hdr] at h
        by_cases hp0 : gmid.player = 0
        · rw [if_pos hp0] at h
          simp only [Except.ok.injEq] at h
          subst h
          exact ⟨hp1, hp2, hc1, hc2⟩
        · rw [if_neg hp0] at h
          simp only [Except.ok.injEq] at h
          subst h
          exact ⟨hp1, hp2, hc1, hc2⟩

lemma play_preserves_SInv (g : game) (t : Turn) (ab : Bool) (hs : g.SInv)
    (hok : (g.play t ab).2.2.2 = none) : (g.play t ab).1.SInv := by
  obtain ⟨hlen, hrows, hcount, hcells⟩ := hs
  cases hv1 : g.validateBounds t.cell with
  | some e =>
    exfalso
    rw [game.play] at hok
    rw [hv1] at hok
    cases hok
  | none =>
  cases hv2 : g.validateTurn t ab with
  | some e =>
    exfalso
    rw [game.play] at hok
    rw [hv1, hv2] at hok
    cases hok
  | none =>
    have hrow : t.cell.row < g.size := by
      by_contra hge
      rw [game.validateBounds, if_pos (by omega)] at hv1
      cases hv1
    have hcol : t.cell.column < g.size := by
      by_contra hge
      rw [game.validateBounds, if_neg (by omega), if_pos (by omega)] at hv1
      cases hv1
    have hnot0 : t.player ≠ 0 := by
      intro h0
      rw [game.validateTurn] at hv2
      by_cases hst : g.state ≠ .awaitingTurn
      · rw [if_pos hst] at hv2; cases hv2
      rw [if_neg hst] at hv2
      have : ¬ Player.IsValid t.player := by
        rw [h0]
        decide
      rw [if_pos this] at hv2
      cases hv2
    have hempty : cellAt g.board t.cell.row t.cell.column = 0 := by
      by_contra hne
      rw [game.validateTurn] at hv2
      by_cases hst : g.state ≠ .awaitingTurn
      · rw [if_pos hst] at hv2; cases hv2
      rw [if_neg hst] at hv2
      by_cases hval : ¬ Player.IsValid t.player
      · rw [if_pos hval] at hv2; cases hv2
      rw [if_neg hval] at hv2
      by_cases hbmatch : ((match g.bot with
        | some b => b.player == t.player
        | none => false) && !ab) = true
      · rw [if_pos hbmatch] at hv2; cases hv2
      rw [if_neg hbmatch] at hv2
      by_cases hwp : t.player ≠ g.player
      · rw [if_pos hwp] at hv2; cases hv2
      rw [if_neg hwp] at hv2
      rw [if_pos (Nat.pos_of_ne_zero hne)] at hv2
      cases hv2
    have hrowb : t.cell.row < g.board.length := by rw [hlen]; exact hrow
    have hrlen : (g.board.getD t.cell.row []).length = g.size := by
      have hmem : g.board.getD t.cell.row [] = g.board[t.cell.row] := by
        simp [List.getD_eq_getElem?_getD, List.getElem?_eq_getElem hrowb]
      rw [hmem]
      exact hrows _ (List.getElem_mem hrowb)
    have hcolb : t.cell.column < (g.board.getD t.cell.row []).length := by
      rw [hrlen]; exact hcol
    have hb1 : (g.board.setCell t.cell.row t.cell.column t.player).length = g.size := by
      rw [setCell_length]; exact hlen
    have hb2 : ∀ cols ∈ g.board.setCell t.cell.row t.cell.column t.player,
        cols.length = g.size := by
      intro cols hc
      rcases List.mem_or_eq_of_mem_set hc with hc | hc
      · exact hrows cols hc
      · rw [hc, List.length_set]
        exact hrlen
    have hb3 : (g.turns ++ [t]).length =
        countOccupied (g.board.setCell t.cell.row t.cell.column t.player) := by
      rw [List.length_append, countOccupied_setCell g.board t.cell.row t.cell.column
        t.player hrowb hcolb hempty hnot0, hcount]
      rfl
    have hb4 : ∀ t2 ∈ g.turns ++ [t],
        cellAt (g.board.setCell t.cell.row t.cell.column t.player)
          t2.cell.row t2.cell.column = t2.player ∧ t2.player ≠ 0 := by
      intro t2 ht2
      rcases List.mem_append.mp ht2 with ht2 | ht2
      · obtain ⟨hcell2, hne2⟩ := hcells t2 ht2
        have hdiff : ¬ (t.cell.row = t2.cell.row ∧ t.cell.column = t2.cell.column) := by
          rintro ⟨he1, he2⟩
          rw [← he1, ← he2] at hcell2
          rw [hempty] at hcell2
          exact hne2 hcell2.symm
        rw [cellAt_setCell_ne g.board t.cell.row t.cell.column t.player
          t2.cell.row t2.cell.column hdiff]
        exact ⟨hcell2, hne2⟩
      · rw [List.mem_singleton] at ht2
        rw [ht2]
        rw [cellAt_setCell_self g.board t.cell.row t.cell.column t.player hrowb hcolb]
        exact ⟨rfl, hnot0⟩
    rw [game.play]
    rw [hv1, hv2]
    by_cases hwin : Conditions.IsWinningTurn g.conditions
        (g.board.setCell t.cell.row t.cell.column t.player) t = true
    · rw [if_pos hwin]
      exact ⟨hb1, hb2, hb3, hb4⟩
    rw [if_neg hwin]
    by_cases hdr : (g.turns ++ [t]).length ≥ g.maxTurns
    · rw [if_pos hdr]
      exact ⟨hb1, hb2, hb3, hb4⟩
    · rw [if_neg hdr]
      exact ⟨hb1, hb2, hb3, hb4⟩

lemma allowBotTurn_preserves_SInv (g : game) (r : Nat) (hs : g.SInv) :
    (g.AllowBotTurn r).1.SInv := by
  rw [game.AllowBotTurn]
  by_cases hbt : ¬ g.IsBotTurn
  · rw [if_pos hbt]
    exact hs
  rw [if_neg hbt]
  cases hgb : g.bot with
  | none => simp only [hgb]; exact hs
  | some b =>
    simp only [hgb]
    cases hturn : b.turnFn g.board ⟨g.conditions, g.maxTurns, g.LastTurn⟩ r with
    | error e => simp only [hturn]; exact hs
    | ok cell =>
      simp only [hturn]
      cases herr : (g.play ⟨cell, g.player⟩ true).2.2.2 with
      | none => exact play_preserves_SInv g ⟨cell, g.player⟩ true hs herr
      | some e =>
        have := play_err_unchanged g ⟨cell, g.player⟩ true e herr
        rw [this.1]
        exact hs

/-- Reachable describes the games obtainable from Start, restricted to
configuration options that preserve the draft invariant (which every exported
option does), through successful Play submissions and AllowBotTurn
delegations. -/
inductive Reachable : game → Prop where
  | start : ∀ (opts : List GOption) (g : game), (∀ o ∈ opts, PreservesDraft o) →
      Start opts = .ok g → Reachable g
  | play : ∀ (g : game) (t : Turn), Reachable g → (g.Play t).2.2.2 = none →
      Reachable (g.Play t).1
  | bot : ∀ (g : game) (r : Nat), Reachable g → Reachable (g.AllowBotTurn r).1

/-- C10: every exported configuration option preserves the draft invariant,
and every game reachable from Start (with or without a valid preset board)
through successful Play and AllowBotTurn calls keeps the turn history as long
as the number of occupied board cells, with every recorded turn's cell
holding that turn's player. -/
theorem reachable_board_history_invariant :
    (∀ b, PreservesDraft (WithBoard b)) ∧
    (∀ n, PreservesDraft (WithSize n)) ∧
    (∀ p, PreservesDraft (WithStarterPlayer p)) ∧
    (∀ b, PreservesDraft (withBot b)) ∧
    (∀ c, PreservesDraft (WithCondition c)) ∧
    (∀ cs, PreservesDraft (WithConditions cs)) ∧
    (∀ pk, (∀ o ∈ pk, PreservesDraft o) → PreservesDraft (WithPack pk)) ∧
    (∀ g, Reachable g → g.turns.length = countOccupied g.board ∧
      ∀ t ∈ g.turns, cellAt g.board t.cell.row t.cell.column = t.player) := by
  refine ⟨preservesDraft_withBoard, preservesDraft_withSize,
    preservesDraft_withStarterPlayer, preservesDraft_withBot,
    preservesDraft_withCondition, preservesDraft_withConditions,
    preservesDraft_withPack, ?_⟩
  have hmain : ∀ g, Reachable g → g.SInv := by
    intro g h
    induction h with
    | start opts g hopts hstart => exact start_SInv opts hopts g hstart
    | play g t hr hok ih => exact play_preserves_SInv g t false ih hok
    | bot g r hr ih => exact allowBotTurn_preserves_SInv g r ih
  intro g h
  obtain ⟨-, -, hc, hcell⟩ := hmain g h
  exact ⟨hc, fun t ht => (hcell t ht).1⟩

/-- C10 witness: the invariant at the concrete game reached by one successful
move from the default Start. -/
theorem reachable_board_history_invariant_witness :
    (gameW.Play ⟨⟨0, 0⟩, 1⟩).1.turns.length =
      countOccupied (gameW.Play ⟨⟨0, 0⟩, 1⟩).1.board ∧
    ∀ t ∈ (gameW.Play ⟨⟨0, 0⟩, 1⟩).1.turns,
      cellAt (gameW.Play ⟨⟨0, 0⟩, 1⟩).1.board t.cell.row t.cell.column = t.player :=
  reachable_board_history_invariant.2.2.2.2.2.2.2 _
    (Reachable.play gameW ⟨⟨0, 0⟩, 1⟩
      (Reachable.start [] gameW (by intro o ho; cases ho) rfl) (by rfl))
